import Mathlib

/-!
Library management system: category tree, category graph and recommendations.

A shallow embedding of `src/project.cpp` (classes `Book`, `Borrower`,
`CategoryNode`, `CategoryGraph` and, of `LibraryManager`, the category
methods, `borrowBook` and the reading of a book line) together with theorems
about it.

Conventions of the embedding:

* `std::vector<T>` is `List T` (`push_back` appends at the end);
* `std::set<std::string>` is a list of keys kept in ascending order without
  repetition (`StdSet`), `std::map<std::string, V>` a list of key/value pairs
  kept in ascending key order (`StdMap V`); iteration of either is iteration
  of the list;
* `std::string` is `String`; its `operator<` is the lexicographic order of
  `String`;
* `int` values that are only stored, compared with small constants or
  incremented once per catalog book are `Int`.
-/

namespace Library

/-! ## Book -/

/-- The class `Book`: five fields, read through the getters. -/
structure Book where
  title : String
  author : String
  isbn : String
  isAvailable : Bool
  category : String
deriving DecidableEq

/-! ## std::set<std::string> -/

/-- The container `std::set<std::string>`: its elements in iteration order. -/
abbrev StdSet := List String

namespace StdSet

/-- The empty set (a default constructed `std::set`). -/
def empty : StdSet := []

/-- The member `count`: 1 when the key is present, 0 otherwise. -/
def count (s : StdSet) (x : String) : Nat :=
  if x ∈ s then 1 else 0

/-- The member `insert`: nothing happens when the key is present, otherwise
the key is placed at its position in ascending order. -/
def insert (s : StdSet) (x : String) : StdSet :=
  if x ∈ s then s else List.orderedInsert (fun a b => a ≤ b) x s

/-- The member `find`, with `none` for `end()`. -/
def find (s : StdSet) (x : String) : Option String :=
  if x ∈ s then some x else none

/-- The member `size`. -/
def size (s : StdSet) : Nat := s.length

end StdSet

/-! ## std::map<std::string, V> -/

/-- The container `std::map<std::string, V>`: its entries in iteration order. -/
abbrev StdMap (V : Type) := List (String × V)

namespace StdMap

variable {V : Type}

/-- The member `find`, with `none` for `end()`. -/
def find (m : StdMap V) (k : String) : Option V :=
  match m with
  | [] => none
  | (k', v) :: rest => if k' = k then some v else find rest k

/-- The idiom `m[k] = f(m[k])`: `operator[]` inserts the value-initialised
`dflt` under `k` when `k` is absent (at its place in key order) and the
mapped value is then replaced by `f` of it. -/
def update (m : StdMap V) (k : String) (dflt : V) (f : V → V) : StdMap V :=
  match find m k with
  | some _ => m.map (fun p => if p.1 = k then (p.1, f p.2) else p)
  | none => List.orderedInsert (fun a b => a.1 ≤ b.1) (k, f dflt) m

end StdMap

/-! ## Recursive recommendation -/

/-- The `if`/`else if` chain of `recommendBooks` that fills
`relatedCategories`. -/
def relatedCategories (category : String) : List String :=
  if category = "Fiction" then ["Fantasy", "Mystery", "Romance"]
  else if category = "Fantasy" then ["Fiction", "Science Fiction"]
  else if category = "Science Fiction" then ["Fantasy", "Fiction"]
  else if category = "Technical" then ["Science Fiction"]
  else []

/-- The loop of `recommendBooks` over `books` that pushes the title of every
available book of `category` onto `recommendations`. -/
def addTitles (books : List Book) (category : String)
    (recommendations : List String) : List String :=
  books.foldl
    (fun r book =>
      if book.category = category ∧ book.isAvailable = true then r ++ [book.title] else r)
    recommendations

/-- The method `LibraryManager::recommendBooks`.  The two reference parameters
`visited` and `recommendations` are passed in and returned as a pair.  The
recursion is on `depth`: a call that gets past the guard has `depth < 3` and
calls itself with `depth + 1`. -/
def recommendBooks (books : List Book) (category : String)
    (st : StdSet × List String) (depth : Int) : StdSet × List String :=
  if depth ≥ 3 ∨ StdSet.count st.1 category > 0 then st
  else
    (relatedCategories category).foldl
      (fun s relatedCategory => recommendBooks books relatedCategory s (depth + 1))
      (StdSet.insert st.1 category, addTitles books category st.2)
termination_by (3 - depth).toNat
decreasing_by
  all_goals simp_wf
  all_goals omega

/-- One entry of the call log of the instrumented traversal: the arguments
`category` and `depth` of a call of `recommendBooks`, and whether the call got
past the guard and did the per-category work. -/
structure Call where
  category : String
  depth : Int
  expanded : Bool
deriving DecidableEq

/-- The method `recommendBooks` again, instrumented with a log that gets one
entry at the entry of every call, in call order.  The log is never read by the
code; `recommendBooksTraced_fst` shows that the instrumented function computes
what `recommendBooks` computes. -/
def recommendBooksTraced (books : List Book) (category : String)
    (st : StdSet × List String) (calls : List Call) (depth : Int) :
    (StdSet × List String) × List Call :=
  if depth ≥ 3 ∨ StdSet.count st.1 category > 0 then
    (st, calls ++ [⟨category, depth, false⟩])
  else
    (relatedCategories category).foldl
      (fun s relatedCategory =>
        recommendBooksTraced books relatedCategory s.1 s.2 (depth + 1))
      ((StdSet.insert st.1 category, addTitles books category st.2),
        calls ++ [⟨category, depth, true⟩])
termination_by (3 - depth).toNat
decreasing_by
  all_goals simp_wf
  all_goals omega

/-- The set `categories` that `searchByCategory` and `getBookRecommendations`
build by inserting the category of every book. -/
def observedCategories (books : List Book) : StdSet :=
  books.foldl (fun s book => StdSet.insert s book.category) StdSet.empty

/-- What one run of `getBookRecommendations` does after the line
`startCategory` has been read: the category set that is listed, whether
"Category not found!" is written, the calls of `recommendBooks` that are made
and the vector `recommendations` that is printed (empty when the method
returns before declaring it). -/
structure RecommendationRun where
  categories : StdSet
  notFound : Bool
  calls : List Call
  recommendations : List String
deriving DecidableEq

/-- The method `LibraryManager::getBookRecommendations`, with the line read
from `std::cin` as the argument `startCategory`. -/
def getBookRecommendations (books : List Book) (startCategory : String) :
    RecommendationRun :=
  let categories := observedCategories books
  if StdSet.find categories startCategory = none then
    { categories := categories, notFound := true, calls := [], recommendations := [] }
  else
    let r := recommendBooksTraced books startCategory (StdSet.empty, []) [] 0
    { categories := categories, notFound := false, calls := r.2,
      recommendations := r.1.2 }

/-- What a stretch `new` of the call log says about the traversal that wrote
it, started at depth `d` with visited set `v` and ended with visited set `v'`:
the visited set only grows; every logged call has a depth between `d` and
`max d 3`; a call that did the per-category work was for a category that was
not visited before and is visited afterwards, at a depth below 3; and no
category did the work twice. -/
def TraceSpec (d : Int) (v : StdSet) (new : List Call) (v' : StdSet) : Prop :=
  (∀ x ∈ v, x ∈ v') ∧
  (∀ e ∈ new, d ≤ e.depth ∧ e.depth ≤ max d 3 ∧
    (e.expanded = true → e.category ∉ v ∧ e.category ∈ v' ∧ e.depth < 3)) ∧
  ((new.filter (fun e => e.expanded)).map (fun e => e.category)).Nodup

/-! ## Category graph -/

/-- The struct `CategoryGraph::Edge` (the fields `from` and `to` are spelled
`from_` and `to_`). -/
structure Edge where
  from_ : String
  to_ : String
  weight : Int
deriving DecidableEq

/-- The struct `CategoryGraph`: the map `adjacencyList`. -/
structure CategoryGraph where
  adjacencyList : StdMap (List Edge)

namespace CategoryGraph

/-- A default constructed graph: the empty map. -/
def empty : CategoryGraph := ⟨[]⟩

/-- The member `addEdge`: two `push_back`s, each through `operator[]`. -/
def addEdge (g : CategoryGraph) (from_ to_ : String) (weight : Int) : CategoryGraph :=
  let adj1 :=
    StdMap.update g.adjacencyList from_ [] (fun es => es ++ [Edge.mk from_ to_ weight])
  ⟨StdMap.update adj1 to_ [] (fun es => es ++ [Edge.mk to_ from_ weight])⟩

/-- The adjacency sequence of a category: the vector mapped to it, empty when
the map has no entry for it. -/
def edges (g : CategoryGraph) (category : String) : List Edge :=
  (StdMap.find g.adjacencyList category).getD []

/-- A sequence of `addEdge` calls, one per triple, applied in order. -/
def addEdges (g : CategoryGraph) (ops : List (String × String × Int)) : CategoryGraph :=
  ops.foldl (fun g r => g.addEdge r.1 r.2.1 r.2.2) g

end CategoryGraph

/-- The vector `relationships` of `analyzeCategories`. -/
def relationships : List (String × String × Int) :=
  [("Fiction", "Fantasy", 3),
   ("Fiction", "Mystery", 2),
   ("Fiction", "Romance", 2),
   ("Fantasy", "Science Fiction", 3),
   ("Science Fiction", "Fiction", 2),
   ("Technical", "Science Fiction", 1)]

/-- The first loop of `analyzeCategories`: `categoryCount[category]++` for
every book.  The counter is an `int` that goes up by one per book; the model
lets it count without bound. -/
def categoryCount (books : List Book) : StdMap Int :=
  books.foldl (fun m book => StdMap.update m book.category 0 (fun n => n + 1)) []

/-- The loop of `analyzeCategories` over `relationships`: an edge is added
when both categories are found in `categoryCount`. -/
def buildGraph (count : StdMap Int) : CategoryGraph :=
  relationships.foldl
    (fun graph r =>
      if StdMap.find count r.1 ≠ none ∧ StdMap.find count r.2.1 ≠ none then
        graph.addEdge r.1 r.2.1 r.2.2
      else graph)
    CategoryGraph.empty

/-- The innermost loop of the recommendation block of `analyzeCategories`, for
one edge with target `to_`: every available book of that category is inserted
as "title (category)"; the `break` leaves this loop over the books when the
set holds 2 elements or more after an insertion. -/
def scanBooks (to_ : String) : List Book → StdSet → StdSet
  | [], recommended => recommended
  | book :: rest, recommended =>
    if book.category = to_ ∧ book.isAvailable = true then
      let recommended' := StdSet.insert recommended (book.title ++ " (" ++ to_ ++ ")")
      if StdSet.size recommended' ≥ 2 then recommended'
      else scanBooks to_ rest recommended'
    else scanBooks to_ rest recommended

/-- The loop over the edges of one source category: `recommended` starts
empty and every edge scans the catalog. -/
def crossRecommendations (books : List Book) (edges : List Edge) : StdSet :=
  edges.foldl (fun recommended edge => scanBooks edge.to_ books recommended) StdSet.empty

/-- What `analyzeCategories` computes and prints: the category statistics, the
graph, and for every category of the graph with a non-empty edge vector the
set `recommended` printed under "If you like ..., you might also enjoy:". -/
structure CategoryAnalysis where
  categoryCount : StdMap Int
  graph : CategoryGraph
  recommended : List (String × StdSet)

/-- The method `LibraryManager::analyzeCategories`. -/
def analyzeCategories (books : List Book) : CategoryAnalysis :=
  let count := categoryCount books
  let graph := buildGraph count
  { categoryCount := count
    graph := graph
    recommended :=
      graph.adjacencyList.filterMap
        (fun entry =>
          if ¬ entry.2.isEmpty then some (entry.1, crossRecommendations books entry.2)
          else none) }

/-! ## Category tree -/

/-- The struct `CategoryNode`.  A `CategoryNode*` is the address of a node in
the heap of the nodes made with `new`, so `subcategories` is a list of
addresses. -/
structure CategoryNode where
  category : String
  books : List Book
  subcategories : List Nat
deriving DecidableEq

/-- The constructor `CategoryNode(cat)`. -/
def CategoryNode.new (cat : String) : CategoryNode := ⟨cat, [], []⟩

/-- The member `CategoryNode::addBook`. -/
def CategoryNode.addBook (node : CategoryNode) (book : Book) : CategoryNode :=
  { node with books := node.books ++ [book] }

/-- The algorithm `std::sort(first, last, comp)` on a vector whose elements
are pairwise ordered by `comp` one way or the other: an insertion sort that
puts `a` before `b` when `comp b a` does not hold. -/
def stdSort {α : Type} (comp : α → α → Prop) [DecidableRel comp] (l : List α) : List α :=
  l.insertionSort (fun a b => ¬ comp b a)

/-- The objects of `displayBooksByCategory`: the node `*root`, which only the
local pointer `root` refers to; the category nodes made with `new`, listed by
address, which both `categoryMap` and `root->subcategories` point to; and
`categoryMap`. -/
structure TreeState where
  root : CategoryNode
  heap : List CategoryNode
  categoryMap : StdMap Nat

/-- The node `*p`; every pointer that is followed was returned by `new`. -/
def TreeState.deref (st : TreeState) (p : Nat) : CategoryNode :=
  st.heap.getD p (CategoryNode.new "")

/-- The body of the first loop of `displayBooksByCategory`: a node is made for
a category that `categoryMap` does not hold. -/
def createCategoryNode (st : TreeState) (book : Book) : TreeState :=
  let category := book.category
  if StdMap.find st.categoryMap category = none then
    let node := st.heap.length
    { root := { st.root with subcategories := st.root.subcategories ++ [node] }
      heap := st.heap ++ [CategoryNode.new category]
      categoryMap := StdMap.update st.categoryMap category 0 (fun _ => node) }
  else st

/-- The body of the second loop: `categoryMap[book.getCategory()]->addBook(book)`.
The first loop has put every category of the catalog in the map, so the
`none` branch is never taken. -/
def addBookToCategory (st : TreeState) (book : Book) : TreeState :=
  match StdMap.find st.categoryMap book.category with
  | some node => { st with heap := st.heap.modify (fun n => n.addBook book) node }
  | none => st

/-- The method `LibraryManager::displayBooksByCategory` up to the point where
the tree is displayed: the two loops and the sort of `root->subcategories`. -/
def displayBooksByCategory (books : List Book) : TreeState :=
  let st0 : TreeState := { root := CategoryNode.new "Root", heap := [], categoryMap := [] }
  let st1 := books.foldl createCategoryNode st0
  let st2 := books.foldl addBookToCategory st1
  { st2 with
    root :=
      { st2.root with
        subcategories :=
          stdSort (fun a b => (st2.deref a).category < (st2.deref b).category)
            st2.root.subcategories } }

/-- The children of the root, in the order of `root->subcategories`. -/
def TreeState.children (st : TreeState) : List CategoryNode :=
  st.root.subcategories.map st.deref

/-- The link between the map and the heap in `displayBooksByCategory`: the
nodes of the heap have pairwise different categories, and the map sends a
category to an address exactly when the node at that address has that
category. -/
def TreeState.Linked (st : TreeState) : Prop :=
  (st.heap.map (fun n => n.category)).Nodup ∧
  ∀ c p, StdMap.find st.categoryMap c = some p ↔
    (st.heap.map (fun n => n.category))[p]? = some c

/-! ## Borrowing -/

/-- The four-argument constructor of `Book`: a new book is available. -/
def Book.new (t a i cat : String) : Book := ⟨t, a, i, true, cat⟩

/-- The setter `Book::setAvailability`. -/
def Book.setAvailability (book : Book) (status : Bool) : Book :=
  { book with isAvailable := status }

/-- The class `Borrower`. -/
structure Borrower where
  id : String
  name : String
  borrowedBooks : List String
deriving DecidableEq

/-- The member `Borrower::borrowBook`. -/
def Borrower.borrowBook (borrower : Borrower) (isbn : String) : Borrower :=
  { borrower with borrowedBooks := borrower.borrowedBooks ++ [isbn] }

/-- The algorithm `std::find_if` over a whole vector, and `find` of a
character in a string: the returned iterator is the position of the first
element that passes the test together with the element there; `none` is
`end()` (or `npos`). -/
def findIf {α : Type} (p : α → Bool) : List α → Option (Nat × α)
  | [] => none
  | a :: l => if p a then some (0, a) else (findIf p l).map (fun r => (r.1 + 1, r.2))

/-- What it is for `a`, at position `i` of `l`, to be the first element that
passes the test `p`. -/
def IsFirstMatch {α : Type} (p : α → Bool) (l : List α) (i : Nat) (a : α) : Prop :=
  l[i]? = some a ∧ p a = true ∧ ∀ k b, k < i → l[k]? = some b → p b = false

/-- The data members of `LibraryManager`.  The stack `recentTransactions` has
its top at the head of the list; the queue `reservations` has its front
there. -/
structure LibraryManager where
  books : List Book
  borrowers : List Borrower
  reservations : List (String × String)
  recentTransactions : List String
  categoryGraph : StdMap (List String)

/-- The method `LibraryManager::borrowBook`: the returned flag and the state
of the manager afterwards. -/
def LibraryManager.borrowBook (lm : LibraryManager) (isbn borrowerId : String) :
    Bool × LibraryManager :=
  match findIf (fun b => decide (b.isbn = isbn)) lm.books with
  | some (bookIt, book) =>
    if book.isAvailable = true then
      match findIf (fun b => decide (b.id = borrowerId)) lm.borrowers with
      | some (borrowerIt, _) =>
        (true,
          { lm with
            books := lm.books.modify (fun b => b.setAvailability false) bookIt
            borrowers := lm.borrowers.modify (fun b => b.borrowBook isbn) borrowerIt
            recentTransactions :=
              ("Borrow: " ++ isbn ++ " by " ++ borrowerId) :: lm.recentTransactions })
      | none => (false, lm)
    else (false, lm)
  | none => (false, lm)

/-! ## Book records as CSV lines -/

/-- The conversion `std::to_string(isAvailable)`: the `bool` is promoted to
`int`. -/
def boolToString (b : Bool) : String := if b then "1" else "0"

/-- The member `Book::toCSV`. -/
def Book.toCSV (book : Book) : String :=
  book.title ++ "," ++ book.author ++ "," ++ book.isbn ++ "," ++
    boolToString book.isAvailable ++ "," ++ book.category

/-- The splitting loop of `loadBooks` on the characters of `line`: while a
comma is found at `pos`, `line.substr(0, pos)` is pushed and
`line.erase(0, pos + 1)` is done; the rest of the line is the last token. -/
def splitLine (line : List Char) (tokens : List String) : List String :=
  match h : findIf (fun c => decide (c = ',')) line with
  | some (pos, _) =>
    splitLine (line.drop (pos + 1)) (tokens ++ [String.mk (line.take pos)])
  | none => tokens ++ [String.mk line]
termination_by line.length
decreasing_by
  cases line with
  | nil => simp [findIf] at h
  | cons c rest =>
    simp only [List.drop_succ_cons, List.length_drop, List.length_cons]
    omega

/-- The body of the reading loop of `loadBooks` for one line: with fewer than
5 tokens no book is made; otherwise the book is built from the tokens 0, 1, 2
and 4 and is available exactly when token 3 is "1". -/
def loadBookLine (line : String) : Option Book :=
  match splitLine line.toList [] with
  | t0 :: t1 :: t2 :: t3 :: t4 :: _ =>
    some ((Book.new t0 t1 t2 t4).setAvailability (decide (t3 = "1")))
  | _ => none

/-! ## Fixed catalogs used in the statements below -/

/-- Five available books, one in each of Fiction, Fantasy, Mystery, Romance
and Science Fiction, in this order. -/
def fiveBooks : List Book :=
  [⟨"A", "", "1", true, "Fiction"⟩, ⟨"B", "", "2", true, "Fantasy"⟩,
   ⟨"C", "", "3", true, "Mystery"⟩, ⟨"D", "", "4", true, "Romance"⟩,
   ⟨"E", "", "5", true, "Science Fiction"⟩]

/-- One Fiction book, two available Fantasy books and one available Mystery
book. -/
def fourBooks : List Book :=
  [⟨"F", "", "1", true, "Fiction"⟩, ⟨"X1", "", "2", true, "Fantasy"⟩,
   ⟨"X2", "", "3", true, "Fantasy"⟩, ⟨"M", "", "4", true, "Mystery"⟩]

/-- A Cooking book next to a Fiction and a Fantasy book. -/
def cookingCatalog : List Book :=
  [⟨"K", "", "1", true, "Cooking"⟩, ⟨"F", "", "2", true, "Fiction"⟩,
   ⟨"X", "", "3", false, "Fantasy"⟩, ⟨"L", "", "4", false, "Cooking"⟩]

/-- The number of catalog entries that are available, have the title `t` and
have a category that is in the visited set `v'` but not in `v`. -/
def newlyVisitedCopies (books : List Book) (t : String) (v v' : StdSet) : Nat :=
  books.countP
    (fun b => decide (b.isAvailable = true ∧ b.title = t ∧ b.category ∈ v' ∧ b.category ∉ v))

/-- Two available copies of one title in Fiction, with different ISBNs. -/
def twoCopies : List Book :=
  [⟨"A", "", "1", true, "Fiction"⟩, ⟨"A", "", "2", true, "Fiction"⟩]

/-- One borrowed and two available Mystery books around a Fiction book. -/
def mysteryCatalog : List Book :=
  [⟨"M1", "", "1", true, "Mystery"⟩, ⟨"F", "", "2", true, "Fiction"⟩,
   ⟨"M2", "", "3", false, "Mystery"⟩, ⟨"M3", "", "4", true, "Mystery"⟩]

/-- A library with two copies under one ISBN and two readers under one ID. -/
def smallLibrary : LibraryManager :=
  { books := [⟨"A", "", "1", false, "Fiction"⟩, ⟨"B", "", "2", true, "Fantasy"⟩,
      ⟨"B", "", "2", true, "Fantasy"⟩]
    borrowers := [⟨"u0", "Ann", []⟩, ⟨"u1", "Bob", ["1"]⟩, ⟨"u1", "Bea", []⟩]
    reservations := []
    recentTransactions := ["Borrow: 1 by u1"]
    categoryGraph := [] }

/-- A borrowed book whose category has a blank in it. -/
def duneBook : Book := ⟨"Dune", "Frank Herbert", "978-0441172719", false, "Science Fiction"⟩

/-! ## Theorems: recursive recommendation -/

/-- Membership in a set after `insert`. -/
theorem StdSet.mem_insert (s : StdSet) (x y : String) :
    x ∈ StdSet.insert s y ↔ x = y ∨ x ∈ s := by
  unfold StdSet.insert
  split_ifs with h
  · constructor
    · exact Or.inr
    · rintro (rfl | hx)
      · exact h
      · exact hx
  · simp [List.mem_orderedInsert]

/-- The test `count(x) > 0` is membership. -/
theorem StdSet.count_pos (s : StdSet) (x : String) :
    StdSet.count s x > 0 ↔ x ∈ s := by
  unfold StdSet.count
  split_ifs with h <;> simp [h]

/-- The test `find(x) == end()` is non-membership. -/
theorem StdSet.find_eq_none (s : StdSet) (x : String) :
    StdSet.find s x = none ↔ x ∉ s := by
  unfold StdSet.find
  split_ifs with h <;> simp [h]

/-- The observed category set holds exactly the categories of the books. -/
theorem mem_observedCategories (books : List Book) (c : String) :
    c ∈ observedCategories books ↔ ∃ b ∈ books, b.category = c := by
  have key : ∀ (l : List Book) (s : StdSet),
      c ∈ l.foldl (fun s book => StdSet.insert s book.category) s ↔
        c ∈ s ∨ ∃ b ∈ l, b.category = c := by
    intro l
    induction l with
    | nil => intro s; simp
    | cons b l ih =>
      intro s
      rw [List.foldl_cons, ih, StdSet.mem_insert]
      constructor
      · rintro ((h | h) | ⟨b', hb', h⟩)
        · exact Or.inr ⟨b, List.mem_cons_self _ _, h.symm⟩
        · exact Or.inl h
        · exact Or.inr ⟨b', List.mem_cons_of_mem _ hb', h⟩
      · rintro (h | ⟨b', hb', h⟩)
        · exact Or.inl (Or.inr h)
        · rcases List.mem_cons.mp hb' with rfl | hb'
          · exact Or.inl (Or.inl h.symm)
          · exact Or.inr ⟨b', hb', h⟩
  simpa [observedCategories, StdSet.empty] using key books []

/-- The fold of the instrumented recursive calls over a list of related
categories projects onto the fold of the plain ones, when each call does. -/
theorem foldl_traced_fst (books : List Book) (depth : Int)
    (h : ∀ c st calls, (recommendBooksTraced books c st calls depth).1 =
      recommendBooks books c st depth)
    (l : List String) (s : (StdSet × List String) × List Call) :
    (l.foldl (fun s rc => recommendBooksTraced books rc s.1 s.2 depth) s).1 =
      l.foldl (fun s rc => recommendBooks books rc s depth) s.1 := by
  induction l generalizing s with
  | nil => rfl
  | cons c l ih => rw [List.foldl_cons, List.foldl_cons, ih, h]

/-- The instrumented traversal computes the visited set and the
recommendations of `recommendBooks`, whatever the log holds. -/
theorem recommendBooksTraced_fst (books : List Book) (category : String)
    (st : StdSet × List String) (calls : List Call) (depth : Int) :
    (recommendBooksTraced books category st calls depth).1 =
      recommendBooks books category st depth := by
  have key : ∀ (n : Nat) (depth : Int), (3 - depth).toNat ≤ n →
      ∀ c st calls, (recommendBooksTraced books c st calls depth).1 =
        recommendBooks books c st depth := by
    intro n
    induction n with
    | zero =>
      intro depth hd c st calls
      have h3 : depth ≥ 3 := by omega
      rw [recommendBooksTraced, recommendBooks]
      simp [h3]
    | succ n ih =>
      intro depth hd c st calls
      rw [recommendBooksTraced, recommendBooks]
      split_ifs with hg
      · rfl
      · have h3 : depth < 3 := by
          by_contra hc
          exact hg (Or.inl (by omega))
        exact foldl_traced_fst books (depth + 1) (ih (depth + 1) (by omega)) _ _
  exact key _ depth le_rfl category st calls


/-- The log written by the loop over the related categories satisfies
`TraceSpec`, when the log of every single call at that depth does. -/
theorem foldl_traced_spec (books : List Book) (depth : Int)
    (h : ∀ c st calls, ∃ new,
      (recommendBooksTraced books c st calls depth).2 = calls ++ new ∧
        TraceSpec depth st.1 new (recommendBooksTraced books c st calls depth).1.1)
    (l : List String) (s : (StdSet × List String) × List Call) :
    ∃ new,
      (l.foldl (fun s rc => recommendBooksTraced books rc s.1 s.2 depth) s).2 = s.2 ++ new ∧
        TraceSpec depth s.1.1 new
          (l.foldl (fun s rc => recommendBooksTraced books rc s.1 s.2 depth) s).1.1 := by
  induction l generalizing s with
  | nil =>
    refine ⟨[], by simp, fun x hx => hx, ?_, by simp⟩
    intro e he
    cases he
  | cons c l ih =>
    obtain ⟨new1, hlog1, hmono1, hent1, hnd1⟩ := h c s.1 s.2
    obtain ⟨new2, hlog2, hmono2, hent2, hnd2⟩ :=
      ih (recommendBooksTraced books c s.1 s.2 depth)
    refine ⟨new1 ++ new2, ?_, ?_, ?_, ?_⟩
    · rw [List.foldl_cons, hlog2, hlog1, List.append_assoc]
    · intro x hx
      exact hmono2 x (hmono1 x hx)
    · intro e he
      rcases List.mem_append.mp he with he | he
      · obtain ⟨h1, h2, h3⟩ := hent1 e he
        refine ⟨h1, h2, fun hexp => ?_⟩
        obtain ⟨h4, h5, h6⟩ := h3 hexp
        exact ⟨h4, hmono2 _ h5, h6⟩
      · obtain ⟨h1, h2, h3⟩ := hent2 e he
        refine ⟨h1, h2, fun hexp => ?_⟩
        obtain ⟨h4, h5, h6⟩ := h3 hexp
        exact ⟨fun hv => h4 (hmono1 _ hv), h5, h6⟩
    · rw [List.filter_append, List.map_append, List.nodup_append]
      refine ⟨hnd1, hnd2, ?_⟩
      intro x hx1 hx2
      obtain ⟨e1, he1, rfl⟩ := List.mem_map.mp hx1
      obtain ⟨e2, he2, heq⟩ := List.mem_map.mp hx2
      obtain ⟨he1m, he1x⟩ := List.mem_filter.mp he1
      obtain ⟨he2m, he2x⟩ := List.mem_filter.mp he2
      have hin := ((hent1 e1 he1m).2.2 (by simpa using he1x)).2.1
      have hout := ((hent2 e2 he2m).2.2 (by simpa using he2x)).1
      rw [heq] at hout
      exact hout hin

/-- Every call of the instrumented traversal appends to the log a stretch that
starts with the call itself and satisfies `TraceSpec`. -/
theorem recommendBooksTraced_spec (books : List Book) (category : String)
    (st : StdSet × List String) (calls : List Call) (depth : Int) :
    ∃ flag rest,
      (recommendBooksTraced books category st calls depth).2 =
        calls ++ ⟨category, depth, flag⟩ :: rest ∧
      TraceSpec depth st.1 (⟨category, depth, flag⟩ :: rest)
        (recommendBooksTraced books category st calls depth).1.1 := by
  have key : ∀ (n : Nat) (depth : Int), (3 - depth).toNat ≤ n →
      ∀ c st calls, ∃ flag rest,
        (recommendBooksTraced books c st calls depth).2 =
          calls ++ ⟨c, depth, flag⟩ :: rest ∧
        TraceSpec depth st.1 (⟨c, depth, flag⟩ :: rest)
          (recommendBooksTraced books c st calls depth).1.1 := by
    intro n
    induction n with
    | zero =>
      intro depth hd c st calls
      have h3 : depth ≥ 3 := by omega
      refine ⟨false, [], ?_, ?_⟩
      · rw [recommendBooksTraced]; simp [h3]
      · rw [recommendBooksTraced]
        simp only [h3, true_or, if_true]
        refine ⟨fun x hx => hx, ?_, by simp⟩
        intro e he
        rw [List.mem_singleton] at he
        subst he
        exact ⟨le_rfl, le_max_left _ _, fun hexp => by cases hexp⟩
    | succ n ih =>
      intro depth hd c st calls
      by_cases hg : depth ≥ 3 ∨ StdSet.count st.1 c > 0
      · refine ⟨false, [], ?_, ?_⟩
        · rw [recommendBooksTraced]; simp only [hg, if_true]
        · rw [recommendBooksTraced]
          simp only [hg, if_true]
          refine ⟨fun x hx => hx, ?_, by simp⟩
          intro e he
          rw [List.mem_singleton] at he
          subst he
          exact ⟨le_rfl, le_max_left _ _, fun hexp => by cases hexp⟩
      · have h3 : depth < 3 := by
          by_contra hc
          exact hg (Or.inl (by omega))
        have hnv : c ∉ st.1 := fun hv => hg (Or.inr ((StdSet.count_pos _ _).mpr hv))
        have hcall : ∀ c' st' calls', ∃ new,
            (recommendBooksTraced books c' st' calls' (depth + 1)).2 = calls' ++ new ∧
              TraceSpec (depth + 1) st'.1 new
                (recommendBooksTraced books c' st' calls' (depth + 1)).1.1 := by
          intro c' st' calls'
          obtain ⟨flag, rest, h1, h2⟩ := ih (depth + 1) (by omega) c' st' calls'
          exact ⟨_, h1, h2⟩
        obtain ⟨new, hlog, hmono, hent, hnd⟩ :=
          foldl_traced_spec books (depth + 1) hcall (relatedCategories c)
            ((StdSet.insert st.1 c, addTitles books c st.2),
              calls ++ [⟨c, depth, true⟩])
        refine ⟨true, new, ?_, ?_⟩
        · rw [recommendBooksTraced]
          simp only [hg, if_false]
          rw [hlog]
          simp
        · rw [recommendBooksTraced]
          simp only [hg, if_false]
          have hc_in := hmono c ((StdSet.mem_insert _ _ _).mpr (Or.inl rfl))
          refine ⟨fun x hx => hmono x ((StdSet.mem_insert _ _ _).mpr (Or.inr hx)), ?_, ?_⟩
          · intro e he
            rcases List.mem_cons.mp he with rfl | he
            · exact ⟨le_rfl, le_max_left _ _, fun _ => ⟨hnv, hc_in, h3⟩⟩
            · obtain ⟨h1, h2, h4⟩ := hent e he
              refine ⟨by omega, ?_, fun hexp => ?_⟩
              · have : max (depth + 1) 3 = 3 := max_eq_right (by omega)
                rw [this] at h2
                exact le_trans h2 (le_max_right _ _)
              · obtain ⟨h5, h6, h7⟩ := h4 hexp
                exact ⟨fun hv => h5 ((StdSet.mem_insert _ _ _).mpr (Or.inr hv)), h6, h7⟩
          · simp only [List.filter_cons, if_true, List.map_cons, List.nodup_cons]
            refine ⟨?_, hnd⟩
            intro hmem
            obtain ⟨e, he, heq⟩ := List.mem_map.mp hmem
            obtain ⟨hem, hex⟩ := List.mem_filter.mp he
            have := ((hent e hem).2.2 (by simpa using hex)).1
            rw [heq] at this
            exact this ((StdSet.mem_insert _ _ _).mpr (Or.inl rfl))
  exact key _ depth le_rfl category st calls

/-- C1, as stated, fails: on the five-book catalog the recommendation started
at "Fiction" does not yield the list A, B, C, D, E. -/
theorem recommendBooks_fiveBooks_ne_breadth_first :
    (recommendBooks fiveBooks "Fiction" (StdSet.empty, []) 0).2 ≠
      ["A", "B", "C", "D", "E"] := by
  simp +decide [recommendBooks, relatedCategories, addTitles, fiveBooks, StdSet.count,
    StdSet.insert, StdSet.empty]

/-- C1, amended: on the five-book catalog the recommendation started at
"Fiction" with empty visited set, empty result and depth 0 yields exactly
A, B, E, C, D: the title of Fiction, then the title of Fantasy followed at once
by E from the expansion of Fantasy into Science Fiction at depth 2, then the
titles of Mystery and of Romance; and the visited set ends up holding the five
categories. -/
theorem recommendBooks_fiveBooks_depth_first :
    recommendBooks fiveBooks "Fiction" (StdSet.empty, []) 0 =
      (["Fantasy", "Fiction", "Mystery", "Romance", "Science Fiction"],
        ["A", "B", "E", "C", "D"]) := by
  simp +decide [recommendBooks, relatedCategories, addTitles, fiveBooks, StdSet.count,
    StdSet.insert, StdSet.empty]

/-- C2: in the call log of one top-level call of `recommendBooks` (empty
visited set, empty log, depth 0), for every catalog and start category, the
calls that did the per-category work are for pairwise different category names
and all have depth 0, 1 or 2; the logged run computes the result of
`recommendBooks`. -/
theorem recommendBooks_expands_each_category_once (books : List Book) (start : String) :
    (((recommendBooksTraced books start (StdSet.empty, []) [] 0).2.filter
        (fun e => e.expanded)).map (fun e => e.category)).Nodup ∧
    (∀ e ∈ (recommendBooksTraced books start (StdSet.empty, []) [] 0).2,
      e.expanded = true → 0 ≤ e.depth ∧ e.depth ≤ 2) ∧
    (recommendBooksTraced books start (StdSet.empty, []) [] 0).1 =
      recommendBooks books start (StdSet.empty, []) 0 := by
  obtain ⟨flag, rest, hlog, _, hent, hnd⟩ :=
    recommendBooksTraced_spec books start (StdSet.empty, []) [] 0
  rw [List.nil_append] at hlog
  refine ⟨by rw [hlog]; exact hnd, ?_, recommendBooksTraced_fst _ _ _ _ _⟩
  intro e he hexp
  rw [hlog] at he
  obtain ⟨h1, _, h3⟩ := hent e he
  have := (h3 hexp).2.2
  exact ⟨h1, by omega⟩

/-- C3: for every catalog and typed start category, `getBookRecommendations`
writes "Category not found!" exactly when no book of the catalog has that
category, and then it makes no call of `recommendBooks` and has no
recommendation; when some book has the category it does not write it, the
traversal is run from the empty visited set at depth 0 and its result is the
list that is printed. -/
theorem getBookRecommendations_notFound_iff (books : List Book) (start : String) :
    (((getBookRecommendations books start).notFound = true ∧
        (getBookRecommendations books start).calls = [] ∧
        (getBookRecommendations books start).recommendations = []) ↔
      ¬ ∃ b ∈ books, b.category = start) ∧
    ((getBookRecommendations books start).notFound = false ↔
      ∃ b ∈ books, b.category = start) ∧
    ((∃ b ∈ books, b.category = start) →
      (getBookRecommendations books start).calls =
        (recommendBooksTraced books start (StdSet.empty, []) [] 0).2 ∧
      (getBookRecommendations books start).calls ≠ [] ∧
      (getBookRecommendations books start).recommendations =
        (recommendBooks books start (StdSet.empty, []) 0).2) := by
  have hfind : StdSet.find (observedCategories books) start = none ↔
      ¬ ∃ b ∈ books, b.category = start := by
    rw [StdSet.find_eq_none, mem_observedCategories]
  by_cases hex : ∃ b ∈ books, b.category = start
  · have hne : ¬ StdSet.find (observedCategories books) start = none :=
      fun h => (hfind.mp h) hex
    obtain ⟨flag, rest, hlog, _⟩ :=
      recommendBooksTraced_spec books start (StdSet.empty, []) [] 0
    have hrun : getBookRecommendations books start =
        { categories := observedCategories books, notFound := false,
          calls := (recommendBooksTraced books start (StdSet.empty, []) [] 0).2,
          recommendations :=
            (recommendBooksTraced books start (StdSet.empty, []) [] 0).1.2 } := by
      simp only [getBookRecommendations, hne, if_false]
    rw [hrun]
    refine ⟨?_, ?_, fun _ => ⟨rfl, ?_, ?_⟩⟩
    · simp [hex]
    · simp [hex]
    · show (recommendBooksTraced books start (StdSet.empty, []) [] 0).2 ≠ []
      rw [hlog]; simp
    · show (recommendBooksTraced books start (StdSet.empty, []) [] 0).1.2 = _
      rw [recommendBooksTraced_fst]
  · have he : StdSet.find (observedCategories books) start = none := hfind.mpr hex
    have hrun : getBookRecommendations books start =
        { categories := observedCategories books, notFound := true, calls := [],
          recommendations := [] } := by
      simp only [getBookRecommendations, he, if_true]
    rw [hrun]
    refine ⟨?_, ?_, fun h => absurd h hex⟩
    · simp [hex]
    · simp [hex]

/-- C10: `recommendBooks` is a total function of the catalog, the category,
the visited set, the result so far and the integer depth, and the run that
computes its value makes, for a start at `depth`, only calls whose depth lies
between `depth` and `max depth 3`; from a depth-0 start every call has a depth
from 0 to 3, so at most 4 calls are ever nested. -/
theorem recommendBooks_terminates_nesting_le_four (books : List Book) (category : String)
    (st : StdSet × List String) (depth : Int) :
    (∃ r log, recommendBooksTraced books category st [] depth = (r, log) ∧
      recommendBooks books category st depth = r ∧
      ∀ e ∈ log, depth ≤ e.depth ∧ e.depth ≤ max depth 3) ∧
    (∀ e ∈ (recommendBooksTraced books category st [] 0).2,
      0 ≤ e.depth ∧ e.depth + 1 ≤ 4) := by
  constructor
  · obtain ⟨flag, rest, hlog, _, hent, _⟩ :=
      recommendBooksTraced_spec books category st [] depth
    rw [List.nil_append] at hlog
    refine ⟨_, _, rfl, (recommendBooksTraced_fst _ _ _ _ _).symm, ?_⟩
    intro e he
    rw [hlog] at he
    exact ⟨(hent e he).1, (hent e he).2.1⟩
  · obtain ⟨flag, rest, hlog, _, hent, _⟩ :=
      recommendBooksTraced_spec books category st [] 0
    rw [List.nil_append] at hlog
    intro e he
    rw [hlog] at he
    obtain ⟨h1, h2, _⟩ := hent e he
    have : max (0 : Int) 3 = 3 := by decide
    rw [this] at h2
    exact ⟨h1, by omega⟩

/-! ## Theorems: maps -/

/-- Looking a key up after the mapped value of `k` was replaced in place. -/
theorem StdMap.find_map {V : Type} (m : StdMap V) (k k' : String) (f : V → V) :
    StdMap.find (m.map (fun p => if p.1 = k then (p.1, f p.2) else p)) k' =
      if k' = k then (StdMap.find m k).map f else StdMap.find m k' := by
  induction m with
  | nil => simp [StdMap.find]
  | cons p m ih =>
    obtain ⟨kp, v⟩ := p
    show StdMap.find ((if kp = k then (kp, f v) else (kp, v)) :: _) k' = _
    by_cases h1 : kp = k
    · rw [if_pos h1]
      subst h1
      by_cases h2 : k' = kp
      · subst h2
        simp [StdMap.find]
      · have h3 : ¬ kp = k' := fun h => h2 h.symm
        simp only [StdMap.find, h3, if_false, h2]
        rw [ih, if_neg h2]
    · rw [if_neg h1]
      by_cases h2 : k' = k
      · subst h2
        simp only [StdMap.find, h1, if_false, if_true]
        rw [ih, if_pos rfl]
      · simp only [StdMap.find, h2, if_false]
        rw [ih, if_neg h2]

/-- Looking up another key than the one that was inserted. -/
theorem StdMap.find_orderedInsert_ne {V : Type} (m : StdMap V) (k k' : String) (x : V)
    (h : k' ≠ k) :
    StdMap.find (List.orderedInsert (fun a b => a.1 ≤ b.1) (k, x) m) k' =
      StdMap.find m k' := by
  induction m with
  | nil => simp [StdMap.find, Ne.symm h]
  | cons p m ih =>
    obtain ⟨kp, v⟩ := p
    rw [List.orderedInsert]
    split_ifs with hle
    · simp only [StdMap.find, Ne.symm h, if_false]
    · simp only [StdMap.find, ih]

/-- Looking up the key that was inserted, when it was absent. -/
theorem StdMap.find_orderedInsert_self {V : Type} (m : StdMap V) (k : String) (x : V)
    (h : StdMap.find m k = none) :
    StdMap.find (List.orderedInsert (fun a b => a.1 ≤ b.1) (k, x) m) k = some x := by
  induction m with
  | nil => simp [StdMap.find]
  | cons p m ih =>
    obtain ⟨kp, v⟩ := p
    rw [List.orderedInsert]
    split_ifs with hle
    · simp [StdMap.find]
    · by_cases hk : kp = k
      · simp [StdMap.find, hk] at h
      · simp only [StdMap.find, hk, if_false] at h ⊢
        exact ih h

/-- Looking a key up after `m[k] = f(m[k])`. -/
theorem StdMap.find_update {V : Type} (m : StdMap V) (k k' : String) (dflt : V) (f : V → V) :
    StdMap.find (StdMap.update m k dflt f) k' =
      if k' = k then some (f ((StdMap.find m k).getD dflt)) else StdMap.find m k' := by
  unfold StdMap.update
  cases hf : StdMap.find m k with
  | none =>
    by_cases h : k' = k
    · subst h
      rw [StdMap.find_orderedInsert_self m k' _ hf, if_pos rfl]
      rfl
    · rw [StdMap.find_orderedInsert_ne m k k' _ h, if_neg h]
  | some v =>
    simp only [StdMap.find_map, hf]
    split_ifs <;> simp

/-! ## Theorems: category graph -/

/-- The adjacency sequence of `X` after `addEdge(a, b, w)`: the old one, then
the edge to `b` when `X` is `a`, then the edge to `a` when `X` is `b`. -/
theorem CategoryGraph.edges_addEdge (g : CategoryGraph) (a b : String) (w : Int)
    (X : String) :
    (g.addEdge a b w).edges X =
      g.edges X ++ (if X = a then [Edge.mk a b w] else []) ++
        (if X = b then [Edge.mk b a w] else []) := by
  simp only [CategoryGraph.edges, CategoryGraph.addEdge, StdMap.find_update]
  by_cases h1 : X = a <;> by_cases h2 : X = b
  · subst h1; subst h2; simp
  · subst h1
    have : ¬ b = X := fun h => h2 h.symm
    simp [h2, this]
  · subst h2
    have : ¬ a = X := fun h => h1 h.symm
    simp [h1, this]
  · simp [h1, h2]

/-- Symmetry of the edge counts is kept by `addEdge`. -/
theorem CategoryGraph.addEdge_count_symm (g : CategoryGraph) (a b : String) (w : Int)
    (h : ∀ A B v, (g.edges A).count (Edge.mk A B v) = (g.edges B).count (Edge.mk B A v))
    (A B : String) (v : Int) :
    ((g.addEdge a b w).edges A).count (Edge.mk A B v) =
      ((g.addEdge a b w).edges B).count (Edge.mk B A v) := by
  rw [CategoryGraph.edges_addEdge, CategoryGraph.edges_addEdge]
  simp only [List.count_append, h A B v]
  have key : ∀ (x y x' y' : String),
      (if x = x' then [Edge.mk x' y' w] else []).count (Edge.mk x y v) =
        if x = x' ∧ y = y' ∧ v = w then 1 else 0 := by
    intro x y x' y'
    by_cases h1 : x = x'
    · subst h1
      by_cases h2 : y = y'
      · subst h2
        by_cases h3 : v = w
        · subst h3; simp
        · have : ¬ w = v := fun h => h3 h.symm
          simp [h3, this]
      · have : ¬ y' = y := fun h => h2 h.symm
        simp [h2, this]
    · simp [h1]
  rw [key A B a b, key A B b a, key B A a b, key B A b a]
  have c1 : (A = a ∧ B = b ∧ v = w) ↔ (B = b ∧ A = a ∧ v = w) := by tauto
  have c2 : (A = b ∧ B = a ∧ v = w) ↔ (B = a ∧ A = b ∧ v = w) := by tauto
  rw [if_congr c1 rfl rfl, if_congr c2 rfl rfl]
  omega

/-- Symmetry of the edge counts is kept by any sequence of `addEdge` calls. -/
theorem CategoryGraph.addEdges_count_symm (ops : List (String × String × Int))
    (g : CategoryGraph)
    (h : ∀ A B v, (g.edges A).count (Edge.mk A B v) = (g.edges B).count (Edge.mk B A v))
    (A B : String) (v : Int) :
    ((g.addEdges ops).edges A).count (Edge.mk A B v) =
      ((g.addEdges ops).edges B).count (Edge.mk B A v) := by
  induction ops generalizing g with
  | nil => exact h A B v
  | cons r ops ih =>
    exact ih (g.addEdge r.1 r.2.1 r.2.2)
      (fun A B v => CategoryGraph.addEdge_count_symm g _ _ _ h A B v)

/-- C5: starting from the empty graph, after any sequence of `addEdge` calls,
for all category names A, B and every weight w, the adjacency sequence of A
holds the edge (A to B, weight w) as many times as the adjacency sequence of B
holds the edge (B to A, weight w); and after one more call `addEdge(A, B, w)`
the sequence of A holds the edge to B with weight w and the sequence of B holds
the edge to A with weight w. -/
theorem addEdge_keeps_graph_symmetric (ops : List (String × String × Int))
    (A B : String) (w : Int) :
    ((CategoryGraph.empty.addEdges ops).edges A).count (Edge.mk A B w) =
      ((CategoryGraph.empty.addEdges ops).edges B).count (Edge.mk B A w) ∧
    Edge.mk A B w ∈ ((CategoryGraph.empty.addEdges ops).addEdge A B w).edges A ∧
    Edge.mk B A w ∈ ((CategoryGraph.empty.addEdges ops).addEdge A B w).edges B := by
  refine ⟨?_, ?_, ?_⟩
  · apply CategoryGraph.addEdges_count_symm
    intro A B v
    simp [CategoryGraph.edges, CategoryGraph.empty, StdMap.find]
  · rw [CategoryGraph.edges_addEdge]
    simp
  · rw [CategoryGraph.edges_addEdge]
    simp

/-- The counter of `c` after the counting loop has run over `l` from `m`. -/
theorem find_countLoop (c : String) (l : List Book) (m : StdMap Int) :
    StdMap.find
        (l.foldl (fun m book => StdMap.update m book.category 0 (fun n => n + 1)) m) c =
      if l.countP (fun b => b.category = c) = 0 then StdMap.find m c
      else some ((StdMap.find m c).getD 0 + (l.countP (fun b => b.category = c) : Nat)) := by
  induction l generalizing m with
  | nil => simp
  | cons b l ih =>
    rw [List.foldl_cons, ih, StdMap.find_update]
    by_cases hb : b.category = c
    · subst hb
      simp only [List.countP_cons, decide_True, if_true]
      by_cases h0 : l.countP (fun x => x.category = b.category) = 0
      · simp [h0]
      · simp only [h0, if_false, Nat.add_eq_zero, one_ne_zero, and_false,
          Option.getD_some, Option.some.injEq]
        push_cast
        omega
    · have hb' : ¬ c = b.category := fun h => hb h.symm
      simp [List.countP_cons, hb, hb']

/-- The statistics of a category: absent when no book has it, otherwise the
number of books that have it. -/
theorem find_categoryCount (books : List Book) (c : String) :
    StdMap.find (categoryCount books) c =
      if books.countP (fun b => b.category = c) = 0 then none
      else some ((books.countP (fun b => b.category = c) : Nat) : Int) := by
  unfold categoryCount
  rw [find_countLoop]
  simp [StdMap.find]

/-- A category is found in the statistics exactly when some book has it. -/
theorem find_categoryCount_ne_none (books : List Book) (c : String) :
    StdMap.find (categoryCount books) c ≠ none ↔ ∃ b ∈ books, b.category = c := by
  rw [find_categoryCount]
  have hpos : books.countP (fun b => b.category = c) ≠ 0 ↔ ∃ b ∈ books, b.category = c := by
    rw [← Nat.pos_iff_ne_zero, List.countP_pos_iff]
    simp
  constructor
  · intro h
    apply hpos.mp
    intro h0
    simp [h0] at h
  · intro h
    have := hpos.mpr h
    simp [this]

/-- The edges of `X` after a loop that adds the edges of the triples that pass
a test `P`. -/
theorem mem_edges_addLoop (P : String × String × Int → Prop) [DecidablePred P]
    (rels : List (String × String × Int)) (g : CategoryGraph) (X : String) (e : Edge) :
    e ∈ (rels.foldl
          (fun graph r => if P r then graph.addEdge r.1 r.2.1 r.2.2 else graph) g).edges X ↔
      e ∈ g.edges X ∨ ∃ r ∈ rels, P r ∧
        ((X = r.1 ∧ e = Edge.mk r.1 r.2.1 r.2.2) ∨
          (X = r.2.1 ∧ e = Edge.mk r.2.1 r.1 r.2.2)) := by
  induction rels generalizing g with
  | nil => simp
  | cons r rels ih =>
    rw [List.foldl_cons, ih]
    by_cases hP : P r
    · simp only [hP, if_true, CategoryGraph.edges_addEdge, List.mem_append, List.mem_cons,
        exists_eq_or_imp, true_and]
      constructor
      · rintro ((((h | h) | h) | h))
        · exact Or.inl h
        · split_ifs at h with hx
          · rw [List.mem_singleton] at h
            exact Or.inr (Or.inl (Or.inl ⟨hx, h⟩))
          · cases h
        · split_ifs at h with hx
          · rw [List.mem_singleton] at h
            exact Or.inr (Or.inl (Or.inr ⟨hx, h⟩))
          · cases h
        · exact Or.inr (Or.inr h)
      · rintro (h | (h | ⟨hx, h⟩) | h)
        · exact Or.inl (Or.inl (Or.inl h))
        · obtain ⟨hx, h⟩ := h
          exact Or.inl (Or.inl (Or.inr (by rw [if_pos hx, h]; exact List.mem_singleton_self _)))
        · exact Or.inl (Or.inr (by rw [if_pos hx, h]; exact List.mem_singleton_self _))
        · exact Or.inr h
    · simp only [hP, if_false, List.mem_cons, exists_eq_or_imp, false_and, false_or]

/-- C4: for every catalog and all category names X and Y, an edge lies in the
adjacency sequence of X with target Y exactly when it goes from X to Y with
the weight of an entry of the relationship table that pairs X and Y, in
either order, and both X and Y are the category of some book; so the graph
built by `analyzeCategories` has an edge from X to Y if and only if the pair
is in the table and both categories occur in the catalog. -/
theorem analyzeCategories_edge_iff (books : List Book) (X Y : String) :
    (∀ e : Edge, (e ∈ (analyzeCategories books).graph.edges X ∧ e.to_ = Y) ↔
      (e.from_ = X ∧ e.to_ = Y ∧
        ((X, Y, e.weight) ∈ relationships ∨ (Y, X, e.weight) ∈ relationships) ∧
        (∃ b ∈ books, b.category = X) ∧ (∃ b ∈ books, b.category = Y))) ∧
    ((∃ e ∈ (analyzeCategories books).graph.edges X, e.to_ = Y) ↔
      ((∃ w, (X, Y, w) ∈ relationships ∨ (Y, X, w) ∈ relationships) ∧
        (∃ b ∈ books, b.category = X) ∧ (∃ b ∈ books, b.category = Y))) := by
  have hmem : ∀ e : Edge, e ∈ (analyzeCategories books).graph.edges X ↔
      ∃ r ∈ relationships,
        ((∃ b ∈ books, b.category = r.1) ∧ (∃ b ∈ books, b.category = r.2.1)) ∧
        ((X = r.1 ∧ e = Edge.mk r.1 r.2.1 r.2.2) ∨
          (X = r.2.1 ∧ e = Edge.mk r.2.1 r.1 r.2.2)) := by
    intro e
    show e ∈ (buildGraph (categoryCount books)).edges X ↔ _
    unfold buildGraph
    rw [mem_edges_addLoop
      (fun r => StdMap.find (categoryCount books) r.1 ≠ none ∧
        StdMap.find (categoryCount books) r.2.1 ≠ none)]
    simp only [find_categoryCount_ne_none]
    simp [CategoryGraph.edges, CategoryGraph.empty, StdMap.find]
  have first : ∀ e : Edge, (e ∈ (analyzeCategories books).graph.edges X ∧ e.to_ = Y) ↔
      (e.from_ = X ∧ e.to_ = Y ∧
        ((X, Y, e.weight) ∈ relationships ∨ (Y, X, e.weight) ∈ relationships) ∧
        (∃ b ∈ books, b.category = X) ∧ (∃ b ∈ books, b.category = Y)) := by
    intro e
    rw [hmem]
    constructor
    · rintro ⟨⟨⟨a, b, w⟩, hr, ⟨hp1, hp2⟩, (⟨hx, he⟩ | ⟨hx, he⟩)⟩, hy⟩
      · subst he
        simp only at hx hy hp1 hp2 ⊢
        subst hx; subst hy
        exact ⟨rfl, rfl, Or.inl hr, hp1, hp2⟩
      · subst he
        simp only at hx hy hp1 hp2 ⊢
        subst hx; subst hy
        exact ⟨rfl, rfl, Or.inr hr, hp2, hp1⟩
    · rintro ⟨hf, ht, (hr | hr), hpx, hpy⟩
      · refine ⟨⟨(X, Y, e.weight), hr, ⟨hpx, hpy⟩, Or.inl ⟨rfl, ?_⟩⟩, ht⟩
        cases e
        simp only at hf ht
        subst hf; subst ht
        rfl
      · refine ⟨⟨(Y, X, e.weight), hr, ⟨hpy, hpx⟩, Or.inr ⟨rfl, ?_⟩⟩, ht⟩
        cases e
        simp only at hf ht
        subst hf; subst ht
        rfl
  refine ⟨first, ?_⟩
  constructor
  · rintro ⟨e, he, ht⟩
    obtain ⟨_, _, hr, hpx, hpy⟩ := (first e).mp ⟨he, ht⟩
    exact ⟨⟨e.weight, hr⟩, hpx, hpy⟩
  · rintro ⟨⟨w, hr⟩, hpx, hpy⟩
    have := (first (Edge.mk X Y w)).mpr ⟨rfl, rfl, hr, hpx, hpy⟩
    exact ⟨_, this.1, this.2⟩

/-- An entry of the map after `m[k] = f(m[k])` is an old entry, or it is the
entry of `k` and holds `f` of the default or of the old value. -/
theorem StdMap.mem_update {V : Type} (m : StdMap V) (k : String) (dflt : V) (f : V → V)
    (p : String × V) (hp : p ∈ StdMap.update m k dflt f) :
    p ∈ m ∨ (p.1 = k ∧ (p.2 = f dflt ∨ ∃ v, (k, v) ∈ m ∧ p.2 = f v)) := by
  unfold StdMap.update at hp
  cases hf : StdMap.find m k with
  | none =>
    rw [hf] at hp
    rcases (List.mem_orderedInsert _).mp hp with h | h
    · exact Or.inr ⟨by rw [h], Or.inl (by rw [h])⟩
    · exact Or.inl h
  | some v =>
    rw [hf] at hp
    obtain ⟨q, hq, hqp⟩ := List.mem_map.mp hp
    by_cases hk : q.1 = k
    · rw [if_pos hk] at hqp
      subst hqp
      refine Or.inr ⟨hk, Or.inr ⟨q.2, ?_, rfl⟩⟩
      rw [← hk]
      exact hq
    · rw [if_neg hk] at hqp
      subst hqp
      exact Or.inl hq

/-- A key that labels no entry is not found. -/
theorem StdMap.find_eq_none_of_forall {V : Type} (m : StdMap V) (k : String)
    (h : ∀ p ∈ m, p.1 ≠ k) : StdMap.find m k = none := by
  induction m with
  | nil => rfl
  | cons p m ih =>
    obtain ⟨kp, v⟩ := p
    have h1 : kp ≠ k := h (kp, v) (List.mem_cons_self _ _)
    simp only [StdMap.find, h1, if_false]
    exact ih (fun q hq => h q (List.mem_cons_of_mem _ hq))

/-- A graph that names `C` neither as a key nor as a target still does so
after an edge between two other categories is added. -/
theorem CategoryGraph.addEdge_avoids (g : CategoryGraph) (a b C : String) (w : Int)
    (ha : a ≠ C) (hb : b ≠ C)
    (h : ∀ entry ∈ g.adjacencyList, entry.1 ≠ C ∧ ∀ e ∈ entry.2, e.to_ ≠ C) :
    ∀ entry ∈ (g.addEdge a b w).adjacencyList,
      entry.1 ≠ C ∧ ∀ e ∈ entry.2, e.to_ ≠ C := by
  have step : ∀ (m : StdMap (List Edge)) (x y : String), x ≠ C → y ≠ C →
      (∀ entry ∈ m, entry.1 ≠ C ∧ ∀ e ∈ entry.2, e.to_ ≠ C) →
      ∀ entry ∈ StdMap.update m x [] (fun es => es ++ [Edge.mk x y w]),
        entry.1 ≠ C ∧ ∀ e ∈ entry.2, e.to_ ≠ C := by
    intro m x y hx hy hm entry hentry
    rcases StdMap.mem_update m x [] _ entry hentry with h1 | ⟨h1, h2 | ⟨v, hv, h2⟩⟩
    · exact hm entry h1
    · refine ⟨by rw [h1]; exact hx, ?_⟩
      intro e he
      rw [h2] at he
      simp only [List.nil_append, List.mem_singleton] at he
      rw [he]
      exact hy
    · refine ⟨by rw [h1]; exact hx, ?_⟩
      intro e he
      rw [h2] at he
      rcases List.mem_append.mp he with he | he
      · exact (hm (x, v) hv).2 e he
      · rw [List.mem_singleton] at he
        rw [he]
        exact hy
  exact step _ b a hb ha (step _ a b ha hb h)

/-- C9: for every catalog and every category C that some book has and that is
none of the six names of the relationship table, no entry of the adjacency map
built by `analyzeCategories` has the key C or holds an edge whose target is C
(so C is not found in the map), while the category statistics hold C with the
number of catalog books whose category is C. -/
theorem analyzeCategories_untabled_category_isolated (books : List Book) (C : String)
    (hC : ∃ b ∈ books, b.category = C)
    (hT : C ∉ ["Fiction", "Fantasy", "Mystery", "Romance", "Science Fiction", "Technical"]) :
    (∀ entry ∈ (analyzeCategories books).graph.adjacencyList,
      entry.1 ≠ C ∧ ∀ e ∈ entry.2, e.to_ ≠ C) ∧
    StdMap.find (analyzeCategories books).graph.adjacencyList C = none ∧
    StdMap.find (analyzeCategories books).categoryCount C =
      some ((books.countP (fun b => b.category = C) : Nat) : Int) ∧
    0 < books.countP (fun b => b.category = C) := by
  have hnames : ∀ r ∈ relationships, r.1 ≠ C ∧ r.2.1 ≠ C := by
    intro r hr
    simp only [relationships, List.mem_cons, List.mem_singleton, List.not_mem_nil,
      or_false] at hr
    simp only [List.mem_cons, List.mem_singleton, List.not_mem_nil, or_false,
      not_or] at hT
    obtain ⟨h1, h2, h3, h4, h5, h6⟩ := hT
    rcases hr with rfl | rfl | rfl | rfl | rfl | rfl
    · exact ⟨Ne.symm h1, Ne.symm h2⟩
    · exact ⟨Ne.symm h1, Ne.symm h3⟩
    · exact ⟨Ne.symm h1, Ne.symm h4⟩
    · exact ⟨Ne.symm h2, Ne.symm h5⟩
    · exact ⟨Ne.symm h5, Ne.symm h1⟩
    · exact ⟨Ne.symm h6, Ne.symm h5⟩
  have loop : ∀ (rels : List (String × String × Int)) (g : CategoryGraph),
      (∀ r ∈ rels, r.1 ≠ C ∧ r.2.1 ≠ C) →
      (∀ entry ∈ g.adjacencyList, entry.1 ≠ C ∧ ∀ e ∈ entry.2, e.to_ ≠ C) →
      ∀ entry ∈ (rels.foldl
          (fun graph r =>
            if StdMap.find (categoryCount books) r.1 ≠ none ∧
                StdMap.find (categoryCount books) r.2.1 ≠ none then
              graph.addEdge r.1 r.2.1 r.2.2
            else graph) g).adjacencyList,
        entry.1 ≠ C ∧ ∀ e ∈ entry.2, e.to_ ≠ C := by
    intro rels
    induction rels with
    | nil => intro g _ hg; exact hg
    | cons r rels ih =>
      intro g hr hg
      rw [List.foldl_cons]
      apply ih _ (fun q hq => hr q (List.mem_cons_of_mem _ hq))
      split_ifs
      · exact CategoryGraph.addEdge_avoids g _ _ C _
          (hr r (List.mem_cons_self _ _)).1 (hr r (List.mem_cons_self _ _)).2 hg
      · exact hg
  have hraw : ∀ entry ∈ (analyzeCategories books).graph.adjacencyList,
      entry.1 ≠ C ∧ ∀ e ∈ entry.2, e.to_ ≠ C := by
    show ∀ entry ∈ (buildGraph (categoryCount books)).adjacencyList, _
    unfold buildGraph
    apply loop relationships CategoryGraph.empty hnames
    intro entry hentry
    cases hentry
  have hpos : 0 < books.countP (fun b => b.category = C) := by
    rw [List.countP_pos_iff]
    obtain ⟨b, hb, hbc⟩ := hC
    exact ⟨b, hb, by simpa using hbc⟩
  refine ⟨hraw, StdMap.find_eq_none_of_forall _ _ (fun p hp => (hraw p hp).1), ?_, hpos⟩
  show StdMap.find (categoryCount books) C = _
  rw [find_categoryCount, if_neg (by omega)]

/-- C9 at a concrete input: the category "Cooking" of `cookingCatalog`. -/
theorem analyzeCategories_untabled_category_isolated_witness :
    (∀ entry ∈ (analyzeCategories cookingCatalog).graph.adjacencyList,
      entry.1 ≠ "Cooking" ∧ ∀ e ∈ entry.2, e.to_ ≠ "Cooking") ∧
    StdMap.find (analyzeCategories cookingCatalog).graph.adjacencyList "Cooking" = none ∧
    StdMap.find (analyzeCategories cookingCatalog).categoryCount "Cooking" =
      some ((cookingCatalog.countP (fun b => b.category = "Cooking") : Nat) : Int) ∧
    0 < cookingCatalog.countP (fun b => b.category = "Cooking") :=
  analyzeCategories_untabled_category_isolated cookingCatalog "Cooking"
    ⟨⟨"K", "", "1", true, "Cooking"⟩, by simp [cookingCatalog], rfl⟩ (by decide)

/-- C6 fails on the code: for the catalog `fourBooks` the source category
"Fiction" has the two edges to Fantasy and to Mystery, and the set collected
for it has 3 elements: the `break` after the second Fantasy title leaves only
the loop over the books, and the next edge inserts a Mystery title. -/
theorem analyzeCategories_fourBooks_collects_three :
    (analyzeCategories fourBooks).graph.edges "Fiction" =
      [Edge.mk "Fiction" "Fantasy" 3, Edge.mk "Fiction" "Mystery" 2] ∧
    (analyzeCategories fourBooks).recommended =
      [("Fantasy", ["F (Fiction)"]),
       ("Fiction", ["M (Mystery)", "X1 (Fantasy)", "X2 (Fantasy)"]),
       ("Mystery", ["F (Fiction)"])] ∧
    StdSet.size (crossRecommendations fourBooks
      ((analyzeCategories fourBooks).graph.edges "Fiction")) = 3 := by
  simp +decide [analyzeCategories, buildGraph, categoryCount, relationships, fourBooks,
    CategoryGraph.addEdge, CategoryGraph.edges, CategoryGraph.empty, StdMap.update,
    StdMap.find, crossRecommendations, scanBooks, StdSet.insert, StdSet.size, StdSet.empty]

/-! ## Theorems: category tree -/

/-- One round of the first loop keeps the map linked to the heap, keeps
`root->subcategories` equal to the list of all addresses, keeps the nodes
empty, and adds the category of the book to the categories of the heap. -/
theorem createCategoryNode_spec (st : TreeState) (book : Book)
    (hl : st.Linked)
    (hr : st.root.subcategories = List.range st.heap.length)
    (he : ∀ n ∈ st.heap, n.books = [] ∧ n.subcategories = []) :
    (createCategoryNode st book).Linked ∧
    (createCategoryNode st book).root.subcategories =
      List.range (createCategoryNode st book).heap.length ∧
    (∀ n ∈ (createCategoryNode st book).heap, n.books = [] ∧ n.subcategories = []) ∧
    (∀ c, c ∈ (createCategoryNode st book).heap.map (fun n => n.category) ↔
      c ∈ st.heap.map (fun n => n.category) ∨ c = book.category) := by
  obtain ⟨hnd, hmap⟩ := hl
  unfold createCategoryNode
  by_cases hf : StdMap.find st.categoryMap book.category = none
  · simp only [hf, if_true]
    have hnot : book.category ∉ st.heap.map (fun n => n.category) := by
      intro hmem
      obtain ⟨p, hp, hpe⟩ := List.getElem_of_mem hmem
      have : StdMap.find st.categoryMap book.category = some p :=
        (hmap _ p).mpr (by rw [List.getElem?_eq_getElem hp, hpe])
      rw [hf] at this
      cases this
    have hlen : (st.heap.map (fun n => n.category)).length = st.heap.length :=
      List.length_map _ _
    refine ⟨⟨?_, ?_⟩, ?_, ?_, ?_⟩
    · rw [List.map_append, List.nodup_append]
      refine ⟨hnd, by simp [CategoryNode.new], ?_⟩
      intro x hx hx'
      simp only [CategoryNode.new, List.map_cons, List.map_nil, List.mem_singleton] at hx'
      rw [hx'] at hx
      exact hnot hx
    · intro c p
      rw [StdMap.find_update, List.map_append]
      simp only [CategoryNode.new, List.map_cons, List.map_nil]
      by_cases hc : c = book.category
      · subst hc
        simp only [if_true, Option.some.injEq]
        constructor
        · intro hp
          subst hp
          rw [List.getElem?_append_right (by rw [hlen]), hlen]
          simp
        · intro hp
          by_cases hlt : p < st.heap.length
          · rw [List.getElem?_append_left (by rw [hlen]; exact hlt)] at hp
            exact absurd (List.getElem?_mem hp) hnot
          · rw [List.getElem?_append_right (by rw [hlen]; omega), hlen] at hp
            have : p - st.heap.length = 0 := by
              by_contra hne
              obtain ⟨k, hk⟩ := Nat.exists_eq_succ_of_ne_zero hne
              rw [hk] at hp
              simp at hp
            omega
      · simp only [hc, if_false]
        rw [hmap]
        constructor
        · intro hp
          have hlt : p < (st.heap.map (fun n => n.category)).length := by
            by_contra hge
            rw [List.getElem?_eq_none (by omega)] at hp
            cases hp
          rw [List.getElem?_append_left hlt]
          exact hp
        · intro hp
          by_cases hlt : p < st.heap.length
          · rw [List.getElem?_append_left (by rw [hlen]; exact hlt)] at hp
            exact hp
          · rw [List.getElem?_append_right (by rw [hlen]; omega)] at hp
            have hmem := List.getElem?_mem hp
            rw [List.mem_singleton] at hmem
            exact absurd hmem hc
    · simp only [hr, List.length_append, List.length_singleton]
      rw [List.range_succ]
    · intro n hn
      rcases List.mem_append.mp hn with h | h
      · exact he n h
      · rw [List.mem_singleton] at h
        subst h
        exact ⟨rfl, rfl⟩
    · intro c
      simp [CategoryNode.new]
  · simp only [hf, if_false]
    refine ⟨⟨hnd, hmap⟩, hr, he, ?_⟩
    intro c
    constructor
    · exact Or.inl
    · rintro (h | h)
      · exact h
      · subst h
        obtain ⟨p, hp⟩ := Option.ne_none_iff_exists'.mp hf
        exact List.getElem?_mem ((hmap _ p).mp hp)

/-- The first loop, run over `l` from a linked state with empty nodes. -/
theorem firstLoop_spec (l : List Book) (st : TreeState)
    (hl : st.Linked)
    (hr : st.root.subcategories = List.range st.heap.length)
    (he : ∀ n ∈ st.heap, n.books = [] ∧ n.subcategories = []) :
    (l.foldl createCategoryNode st).Linked ∧
    (l.foldl createCategoryNode st).root.subcategories =
      List.range (l.foldl createCategoryNode st).heap.length ∧
    (∀ n ∈ (l.foldl createCategoryNode st).heap, n.books = [] ∧ n.subcategories = []) ∧
    (∀ c, c ∈ (l.foldl createCategoryNode st).heap.map (fun n => n.category) ↔
      c ∈ st.heap.map (fun n => n.category) ∨ ∃ b ∈ l, b.category = c) := by
  induction l generalizing st with
  | nil => exact ⟨hl, hr, he, fun c => by simp⟩
  | cons b l ih =>
    obtain ⟨h1, h2, h3, h4⟩ := createCategoryNode_spec st b hl hr he
    obtain ⟨k1, k2, k3, k4⟩ := ih (createCategoryNode st b) h1 h2 h3
    refine ⟨k1, k2, k3, ?_⟩
    intro c
    rw [List.foldl_cons, k4, h4]
    constructor
    · rintro ((h | h) | ⟨b', hb', h⟩)
      · exact Or.inl h
      · exact Or.inr ⟨b, List.mem_cons_self _ _, h.symm⟩
      · exact Or.inr ⟨b', List.mem_cons_of_mem _ hb', h⟩
    · rintro (h | ⟨b', hb', h⟩)
      · exact Or.inl (Or.inl h)
      · rcases List.mem_cons.mp hb' with rfl | hb'
        · exact Or.inl (Or.inr h.symm)
        · exact Or.inr ⟨b', hb', h⟩

/-- Changing the node at the address of category `c` is changing the node of
category `c`, when the categories of the heap are pairwise different. -/
theorem modify_eq_map (heap : List CategoryNode) (p : Nat) (c : String)
    (f : CategoryNode → CategoryNode)
    (hnd : (heap.map (fun n => n.category)).Nodup)
    (hp : (heap.map (fun n => n.category))[p]? = some c) :
    heap.modify f p = heap.map (fun n => if n.category = c then f n else n) := by
  apply List.ext_getElem?
  intro m
  rw [List.getElem?_modify, List.getElem?_map]
  cases hm : heap[m]? with
  | none => rfl
  | some a =>
    simp only [Option.map_eq_map, Option.map_some', Option.some.injEq]
    by_cases hpm : p = m
    · subst hpm
      rw [List.getElem?_map, hm] at hp
      simp only [Option.map_some', Option.some.injEq] at hp
      rw [if_pos rfl, if_pos hp]
    · rw [if_neg hpm]
      by_cases hc : a.category = c
      · exfalso
        have hm' : (heap.map (fun n => n.category))[m]? = some c := by
          rw [List.getElem?_map, hm]
          simp [hc]
        have hlt : m < (heap.map (fun n => n.category)).length := by
          by_contra hge
          rw [List.getElem?_eq_none (by omega)] at hm'
          cases hm'
        exact hpm (List.getElem?_inj hlt hnd (hm'.trans hp.symm)).symm
      · rw [if_neg hc]

/-- One round of the second loop from a linked state: the book is appended to
the node of its category. -/
theorem addBookToCategory_eq (st : TreeState) (b : Book) (hl : st.Linked)
    (hb : b.category ∈ st.heap.map (fun n => n.category)) :
    addBookToCategory st b =
      { st with
        heap := st.heap.map (fun n => if n.category = b.category then n.addBook b else n) } := by
  obtain ⟨hnd, hmap⟩ := hl
  obtain ⟨p, hp⟩ := List.getElem?_of_mem hb
  have hf : StdMap.find st.categoryMap b.category = some p := (hmap _ p).mpr hp
  unfold addBookToCategory
  rw [hf]
  simp only
  rw [modify_eq_map st.heap p b.category _ hnd hp]

/-- The second loop, run over `l` from a linked state whose heap has a node
for every category of `l`: every node gets the books of its category, in the
order of `l`. -/
theorem secondLoop_spec (l : List Book) (st : TreeState) (hl : st.Linked)
    (hb : ∀ b ∈ l, b.category ∈ st.heap.map (fun n => n.category)) :
    l.foldl addBookToCategory st =
      { st with
        heap := st.heap.map (fun n =>
          { n with books := n.books ++ l.filter (fun b => b.category = n.category) }) } := by
  induction l generalizing st with
  | nil =>
    simp only [List.foldl_nil, List.filter_nil, List.append_nil]
    cases st
    simp
  | cons b l ih =>
    rw [List.foldl_cons, addBookToCategory_eq st b hl (hb b (List.mem_cons_self _ _))]
    have hcat : (st.heap.map (fun n => if n.category = b.category then n.addBook b else n)).map
        (fun n => n.category) = st.heap.map (fun n => n.category) := by
      rw [List.map_map]
      apply List.map_congr_left
      intro n _
      simp only [Function.comp]
      split_ifs <;> rfl
    rw [ih]
    · simp only [List.map_map]
      congr 1
      apply List.map_congr_left
      intro n _
      simp only [Function.comp]
      by_cases hc : n.category = b.category
      · simp [hc, CategoryNode.addBook, List.filter_cons]
      · have hc' : ¬ b.category = n.category := fun h => hc h.symm
        simp [hc, hc', List.filter_cons]
    · refine ⟨?_, ?_⟩
      · show ((st.heap.map _).map _).Nodup
        rw [hcat]
        exact hl.1
      · intro c p
        show StdMap.find st.categoryMap c = some p ↔ ((st.heap.map _).map _)[p]? = some c
        rw [hcat]
        exact hl.2 c p
    · intro b' hb'
      show b'.category ∈ (st.heap.map _).map _
      rw [hcat]
      exact hb b' (List.mem_cons_of_mem _ hb')

/-- Following every address of a heap in turn lists the heap. -/
theorem map_deref_range (st : TreeState) :
    (List.range st.heap.length).map st.deref = st.heap := by
  apply List.ext_getElem
  · simp
  · intro i h1 h2
    simp [TreeState.deref, List.getD_eq_getElem?_getD, List.getElem?_eq_getElem h2]

/-- The children of the root built by `displayBooksByCategory`: up to their
order they are the nodes `heap1` made by the first loop, one for each category
of the catalog, each filled with the catalog books of its category; and their
category names ascend strictly. -/
theorem displayBooksByCategory_children (books : List Book) :
    ∃ heap1 : List CategoryNode,
      (heap1.map (fun n => n.category)).Nodup ∧
      (∀ n ∈ heap1, n.books = [] ∧ n.subcategories = []) ∧
      (∀ c, c ∈ heap1.map (fun n => n.category) ↔ ∃ b ∈ books, b.category = c) ∧
      (displayBooksByCategory books).children.Perm
        (heap1.map (fun n =>
          { n with books := n.books ++ books.filter (fun b => b.category = n.category) })) ∧
      ((displayBooksByCategory books).children.map (fun n => n.category)).Pairwise
        (fun x y => x < y) := by
  have hl0 : TreeState.Linked
      { root := CategoryNode.new "Root", heap := [], categoryMap := [] } := by
    refine ⟨List.nodup_nil, ?_⟩
    intro c p
    simp [StdMap.find]
  obtain ⟨h1, h2, h3, h4⟩ := firstLoop_spec books
    { root := CategoryNode.new "Root", heap := [], categoryMap := [] } hl0 rfl
    (fun n hn => by cases hn)
  have e2 := secondLoop_spec books _ h1 (fun b hb => (h4 _).mpr (Or.inr ⟨b, hb, rfl⟩))
  obtain ⟨st1, hst1⟩ : ∃ st1, st1 = books.foldl createCategoryNode
      { root := CategoryNode.new "Root", heap := [], categoryMap := [] } := ⟨_, rfl⟩
  rw [← hst1] at h1 h2 h3 h4 e2
  obtain ⟨st2, hst2⟩ : ∃ st2, st2 = books.foldl addBookToCategory st1 := ⟨_, rfl⟩
  rw [← hst2] at e2
  have hch : (displayBooksByCategory books).children =
      (stdSort (fun a b => (st2.deref a).category < (st2.deref b).category)
        st2.root.subcategories).map st2.deref := by
    rw [hst2, hst1]
    rfl
  have hroot : st2.root.subcategories = List.range st2.heap.length := by
    rw [e2]
    simp only [List.length_map]
    exact h2
  have hperm : (displayBooksByCategory books).children.Perm st2.heap := by
    rw [hch]
    have := (List.perm_insertionSort
      (fun a b => ¬ (st2.deref b).category < (st2.deref a).category)
      st2.root.subcategories).map st2.deref
    rw [hroot, map_deref_range] at this
    rw [hroot]
    exact this
  have hheap2 : st2.heap = st1.heap.map (fun n =>
      { n with books := n.books ++ books.filter (fun b => b.category = n.category) }) := by
    rw [e2]
  have hcat2 : st2.heap.map (fun n => n.category) = st1.heap.map (fun n => n.category) := by
    rw [hheap2, List.map_map]
    rfl
  refine ⟨st1.heap, h1.1, h3, ?_, ?_, ?_⟩
  · intro c
    rw [h4]
    simp
  · rw [← hheap2]
    exact hperm
  · have hnd : ((displayBooksByCategory books).children.map (fun n => n.category)).Nodup := by
      rw [(hperm.map _).nodup_iff, hcat2]
      exact h1.1
    have hsorted : ((displayBooksByCategory books).children.map
        (fun n => n.category)).Pairwise (fun x y => ¬ y < x) := by
      rw [hch, List.map_map, List.pairwise_map]
      haveI : IsTotal Nat (fun a b => ¬ (st2.deref b).category < (st2.deref a).category) :=
        ⟨fun a b => by
          rcases le_total (st2.deref a).category (st2.deref b).category with h | h
          · exact Or.inl (not_lt.mpr h)
          · exact Or.inr (not_lt.mpr h)⟩
      haveI : IsTrans Nat (fun a b => ¬ (st2.deref b).category < (st2.deref a).category) :=
        ⟨fun a b c hab hbc => not_lt.mpr (le_trans (not_lt.mp hab) (not_lt.mp hbc))⟩
      exact List.sorted_insertionSort
        (fun a b => ¬ (st2.deref b).category < (st2.deref a).category) _
    exact (hsorted.and hnd).imp
      (fun h => lt_of_le_of_ne (not_lt.mp h.1) h.2)

/-- C7: for every catalog (empty or not) the category names of the children
of the root built by `displayBooksByCategory` are exactly the categories of
the catalog books, and the sequence of the children is strictly ascending by
category name, so that no name occurs twice. -/
theorem displayBooksByCategory_children_categories (books : List Book) :
    (∀ c, c ∈ (displayBooksByCategory books).children.map (fun n => n.category) ↔
      ∃ b ∈ books, b.category = c) ∧
    ((displayBooksByCategory books).children.map (fun n => n.category)).Sorted
      (fun x y => x < y) ∧
    ((displayBooksByCategory books).children.map (fun n => n.category)).Nodup := by
  obtain ⟨heap1, hnd, _, hcat, hperm, hsorted⟩ := displayBooksByCategory_children books
  have hmap : ((displayBooksByCategory books).children.map (fun n => n.category)).Perm
      (heap1.map (fun n => n.category)) := by
    have := hperm.map (fun n => n.category)
    rw [List.map_map] at this
    exact this
  refine ⟨?_, hsorted, hmap.nodup_iff.mpr hnd⟩
  intro c
  rw [hmap.mem_iff, hcat]

/-- C8: for every catalog and every child node of the tree built by
`displayBooksByCategory`, the books of the node are the catalog books whose
category is the category of the node, in catalog order; so every book of a
node has the category of the node, and every catalog book is in exactly one
node. -/
theorem displayBooksByCategory_node_books (books : List Book) :
    (∀ n ∈ (displayBooksByCategory books).children,
      n.books = books.filter (fun b => b.category = n.category)) ∧
    (∀ n ∈ (displayBooksByCategory books).children, ∀ b ∈ n.books,
      b.category = n.category) ∧
    (∀ b ∈ books, ∃! n, n ∈ (displayBooksByCategory books).children ∧ b ∈ n.books) := by
  obtain ⟨heap1, hnd, hempty, hcat, hperm, _⟩ := displayBooksByCategory_children books
  have hform : ∀ n, n ∈ (displayBooksByCategory books).children ↔
      ∃ m ∈ heap1, n = ⟨m.category, books.filter (fun b => b.category = m.category), []⟩ := by
    intro n
    rw [hperm.mem_iff, List.mem_map]
    constructor
    · rintro ⟨m, hm, rfl⟩
      refine ⟨m, hm, ?_⟩
      rw [(hempty m hm).1, (hempty m hm).2]
      rfl
    · rintro ⟨m, hm, rfl⟩
      refine ⟨m, hm, ?_⟩
      rw [(hempty m hm).1, (hempty m hm).2]
      rfl
  have hbooks : ∀ n ∈ (displayBooksByCategory books).children,
      n.books = books.filter (fun b => b.category = n.category) := by
    intro n hn
    obtain ⟨m, _, rfl⟩ := (hform n).mp hn
    rfl
  refine ⟨hbooks, ?_, ?_⟩
  · intro n hn b hb
    rw [hbooks n hn] at hb
    simpa using (List.mem_filter.mp hb).2
  · intro b hb
    obtain ⟨m, hm, hmc⟩ := List.mem_map.mp ((hcat b.category).mpr ⟨b, hb, rfl⟩)
    refine ⟨⟨m.category, books.filter (fun x => x.category = m.category), []⟩,
      ⟨(hform _).mpr ⟨m, hm, rfl⟩, ?_⟩, ?_⟩
    · exact List.mem_filter.mpr ⟨hb, by simpa using hmc.symm⟩
    · rintro n ⟨hn, hbn⟩
      obtain ⟨m2, hm2, rfl⟩ := (hform n).mp hn
      have hc2 : b.category = m2.category := by
        simpa using (List.mem_filter.mp hbn).2
      have : m2.category = m.category := by rw [← hc2, hmc]
      rw [this]


/-! ## Theorems: the titles a traversal returns -/

/-- The title loop appends the titles of the available books of the category,
in catalog order. -/
theorem addTitles_eq (books : List Book) (category : String) (r : List String) :
    addTitles books category r =
      r ++ (books.filter
        (fun b => decide (b.category = category ∧ b.isAvailable = true))).map
          (fun b => b.title) := by
  unfold addTitles
  induction books generalizing r with
  | nil => simp
  | cons b books ih =>
    rw [List.foldl_cons, ih]
    by_cases h : b.category = category ∧ b.isAvailable = true
    · rw [if_pos h, List.filter_cons_of_pos (by simpa using h)]
      simp
    · rw [if_neg h, List.filter_cons_of_neg (by simpa using h)]

/-- C12: for every catalog and every start category other than "Fiction",
"Fantasy", "Science Fiction" and "Technical", a top-level call of
`recommendBooks` (empty visited set, empty result, depth 0) returns exactly the
titles of the catalog books that have the start category and are available,
in catalog order; and only the start category is visited. -/
theorem recommendBooks_leaf_category (books : List Book) (start : String)
    (h : start ∉ ["Fiction", "Fantasy", "Science Fiction", "Technical"]) :
    (recommendBooks books start (StdSet.empty, []) 0).2 =
      (books.filter (fun b => decide (b.category = start ∧ b.isAvailable = true))).map
        (fun b => b.title) ∧
    (recommendBooks books start (StdSet.empty, []) 0).1 = [start] := by
  simp only [List.mem_cons, List.mem_singleton, List.not_mem_nil, or_false, not_or] at h
  obtain ⟨h1, h2, h3, h4⟩ := h
  have hrel : relatedCategories start = [] := by
    simp only [relatedCategories, h1, h2, h3, h4, if_false]
  have hcall : recommendBooks books start (StdSet.empty, []) 0 =
      (StdSet.insert StdSet.empty start, addTitles books start []) := by
    rw [recommendBooks]
    have hg : ¬ ((0 : Int) ≥ 3 ∨ StdSet.count StdSet.empty start > 0) := by
      simp [StdSet.count, StdSet.empty]
    simp only [hg, if_false, hrel, List.foldl_nil]
  rw [hcall, addTitles_eq]
  exact ⟨by simp, by simp [StdSet.insert, StdSet.empty]⟩

/-- C12 at a concrete input: the category "Mystery" of `mysteryCatalog`, whose
borrowed book M2 gives no title. -/
theorem recommendBooks_leaf_category_witness :
    (recommendBooks mysteryCatalog "Mystery" (StdSet.empty, []) 0).2 = ["M1", "M3"] := by
  have h := (recommendBooks_leaf_category mysteryCatalog "Mystery" (by decide)).1
  rw [h]
  simp +decide [mysteryCatalog]

/-- Counting with a test that is the disjoint union of two tests. -/
theorem countP_add_of_disjoint {α : Type} (P Q R : α → Bool) (l : List α)
    (h : ∀ a, (R a = true ↔ P a = true ∨ Q a = true) ∧ ¬ (P a = true ∧ Q a = true)) :
    l.countP P + l.countP Q = l.countP R := by
  induction l with
  | nil => rfl
  | cons a l ih =>
    obtain ⟨h1, h2⟩ := h a
    simp only [List.countP_cons]
    cases hP : P a <;> cases hQ : Q a <;> cases hR : R a <;>
      simp_all <;> omega

/-- The copies newly visited between `v0` and `v2` are those newly visited
between `v0` and `v1` and those newly visited between `v1` and `v2`. -/
theorem newlyVisitedCopies_add (books : List Book) (t : String) (v0 v1 v2 : StdSet)
    (h01 : ∀ x ∈ v0, x ∈ v1) (h12 : ∀ x ∈ v1, x ∈ v2) :
    newlyVisitedCopies books t v0 v1 + newlyVisitedCopies books t v1 v2 =
      newlyVisitedCopies books t v0 v2 := by
  unfold newlyVisitedCopies
  apply countP_add_of_disjoint
  intro b
  simp only [decide_eq_true_eq]
  constructor
  · constructor
    · rintro ⟨ha, ht, hv2, hv0⟩
      by_cases hv1 : b.category ∈ v1
      · exact Or.inl ⟨ha, ht, hv1, hv0⟩
      · exact Or.inr ⟨ha, ht, hv2, hv1⟩
    · rintro (⟨ha, ht, hv1, hv0⟩ | ⟨ha, ht, hv2, hv1⟩)
      · exact ⟨ha, ht, h12 _ hv1, hv0⟩
      · exact ⟨ha, ht, hv2, fun h => hv1 (h01 _ h)⟩
  · rintro ⟨⟨_, _, hv1, _⟩, ⟨_, _, _, hnv1⟩⟩
    exact hnv1 hv1

/-- The title loop for a category `c` that is not yet visited adds to the
count of `t` the copies that become visited when `c` is inserted. -/
theorem count_addTitles (books : List Book) (t c : String) (v : StdSet) (r : List String)
    (hc : c ∉ v) :
    (addTitles books c r).count t =
      r.count t + newlyVisitedCopies books t v (StdSet.insert v c) := by
  rw [addTitles_eq, List.count_append]
  congr 1
  unfold newlyVisitedCopies
  induction books with
  | nil => rfl
  | cons b books ih =>
    have hiff : (b.category ∈ StdSet.insert v c ∧ b.category ∉ v) ↔ b.category = c := by
      rw [StdSet.mem_insert]
      constructor
      · rintro ⟨h | h, hn⟩
        · exact h
        · exact absurd h hn
      · intro h
        exact ⟨Or.inl h, by rw [h]; exact hc⟩
    by_cases h1 : b.category = c ∧ b.isAvailable = true
    · rw [List.filter_cons_of_pos (by simpa using h1), List.map_cons, List.count_cons,
        List.countP_cons, ih]
      congr 1
      by_cases ht : b.title = t
      · have : b.isAvailable = true ∧ b.title = t ∧ b.category ∈ StdSet.insert v c ∧
            b.category ∉ v := ⟨h1.2, ht, hiff.mpr h1.1⟩
        simp [ht, this]
      · have : ¬ (b.isAvailable = true ∧ b.title = t ∧ b.category ∈ StdSet.insert v c ∧
            b.category ∉ v) := fun h => ht h.2.1
        simp [ht, this]
    · rw [List.filter_cons_of_neg (by simpa using h1), List.countP_cons, ih]
      have : ¬ (b.isAvailable = true ∧ b.title = t ∧ b.category ∈ StdSet.insert v c ∧
          b.category ∉ v) := fun h => h1 ⟨hiff.mp h.2.2, h.1⟩
      simp [this]

/-- The loop over the related categories keeps the visited set growing and
adds to the count of `t` the copies that become visited, when every single
call at that depth does. -/
theorem foldl_recommendBooks_count (books : List Book) (t : String) (depth : Int)
    (h : ∀ c s, (∀ x ∈ s.1, x ∈ (recommendBooks books c s depth).1) ∧
      (recommendBooks books c s depth).2.count t =
        s.2.count t + newlyVisitedCopies books t s.1 (recommendBooks books c s depth).1)
    (l : List String) (s : StdSet × List String) :
    (∀ x ∈ s.1, x ∈ (l.foldl (fun s rc => recommendBooks books rc s depth) s).1) ∧
    (l.foldl (fun s rc => recommendBooks books rc s depth) s).2.count t =
      s.2.count t +
        newlyVisitedCopies books t s.1
          (l.foldl (fun s rc => recommendBooks books rc s depth) s).1 := by
  induction l generalizing s with
  | nil =>
    refine ⟨fun x hx => hx, ?_⟩
    have : newlyVisitedCopies books t s.1 s.1 = 0 := by
      unfold newlyVisitedCopies
      rw [List.countP_eq_zero]
      intro b _
      simp only [decide_eq_true_eq]
      rintro ⟨_, _, h1, h2⟩
      exact h2 h1
    simp [this]
  | cons c l ih =>
    obtain ⟨hm1, hc1⟩ := h c s
    obtain ⟨hm2, hc2⟩ := ih (recommendBooks books c s depth)
    rw [List.foldl_cons]
    refine ⟨fun x hx => hm2 x (hm1 x hx), ?_⟩
    rw [hc2, hc1, Nat.add_assoc, newlyVisitedCopies_add books t _ _ _ hm1 hm2]

/-- Every call of `recommendBooks` keeps the visited set growing and adds to
the count of `t` in the result the number of available catalog entries with
title `t` whose category becomes visited during the call. -/
theorem recommendBooks_count (books : List Book) (t : String) (category : String)
    (s : StdSet × List String) (depth : Int) :
    (∀ x ∈ s.1, x ∈ (recommendBooks books category s depth).1) ∧
    (recommendBooks books category s depth).2.count t =
      s.2.count t +
        newlyVisitedCopies books t s.1 (recommendBooks books category s depth).1 := by
  have hzero : ∀ v : StdSet, newlyVisitedCopies books t v v = 0 := by
    intro v
    unfold newlyVisitedCopies
    rw [List.countP_eq_zero]
    intro b _
    simp only [decide_eq_true_eq]
    rintro ⟨_, _, h1, h2⟩
    exact h2 h1
  have key : ∀ (n : Nat) (depth : Int), (3 - depth).toNat ≤ n →
      ∀ c s, (∀ x ∈ s.1, x ∈ (recommendBooks books c s depth).1) ∧
        (recommendBooks books c s depth).2.count t =
          s.2.count t + newlyVisitedCopies books t s.1 (recommendBooks books c s depth).1 := by
    intro n
    induction n with
    | zero =>
      intro depth hd c s
      have h3 : depth ≥ 3 := by omega
      rw [recommendBooks]
      simp only [h3, true_or, if_true]
      exact ⟨fun x hx => hx, by rw [hzero]; rfl⟩
    | succ n ih =>
      intro depth hd c s
      by_cases hg : depth ≥ 3 ∨ StdSet.count s.1 c > 0
      · rw [recommendBooks]
        simp only [hg, if_true]
        exact ⟨fun x hx => hx, by rw [hzero]; rfl⟩
      · have h3 : depth < 3 := by
          by_contra hc
          exact hg (Or.inl (by omega))
        have hnv : c ∉ s.1 := fun hv => hg (Or.inr ((StdSet.count_pos _ _).mpr hv))
        obtain ⟨hm, hc⟩ := foldl_recommendBooks_count books t (depth + 1)
          (ih (depth + 1) (by omega)) (relatedCategories c)
          (StdSet.insert s.1 c, addTitles books c s.2)
        rw [recommendBooks]
        simp only [hg, if_false]
        have hins : ∀ x ∈ s.1, x ∈ StdSet.insert s.1 c :=
          fun x hx => (StdSet.mem_insert _ _ _).mpr (Or.inr hx)
        refine ⟨fun x hx => hm x (hins x hx), ?_⟩
        rw [hc]
        simp only
        rw [count_addTitles books t c s.1 s.2 hnv, Nat.add_assoc,
          newlyVisitedCopies_add books t _ _ _ hins hm]
  exact key _ depth le_rfl category s

/-- Two positions of a list that hold `t` make the count of `t` at least 2. -/
theorem two_le_count_of_getElem? {α : Type} [DecidableEq α] (l : List α) (t : α)
    (i j : Nat) (hij : i < j) (hi : l[i]? = some t) (hj : l[j]? = some t) :
    2 ≤ l.count t := by
  induction l generalizing i j with
  | nil => simp at hi
  | cons x xs ih =>
    cases j with
    | zero => omega
    | succ j =>
      simp only [List.getElem?_cons_succ] at hj
      cases i with
      | zero =>
        simp only [List.getElem?_cons_zero, Option.some.injEq] at hi
        subst hi
        have : 0 < xs.count x := List.count_pos_iff.mpr (List.getElem?_mem hj)
        rw [List.count_cons_self]
        omega
      | succ i =>
        simp only [List.getElem?_cons_succ] at hi
        have := ih i j (by omega) hi hj
        have hle : xs.count t ≤ (x :: xs).count t := by
          rw [List.count_cons]
          omega
        omega

/-- A test that counts at least 2 holds at two different positions. -/
theorem exists_two_of_two_le_countP {α : Type} (P : α → Bool) (l : List α)
    (h : 2 ≤ l.countP P) :
    ∃ (p q : Nat) (a b : α),
      p < q ∧ l[p]? = some a ∧ l[q]? = some b ∧ P a = true ∧ P b = true := by
  induction l with
  | nil => simp at h
  | cons x xs ih =>
    rw [List.countP_cons] at h
    by_cases hx : P x = true
    · have hpos : 0 < xs.countP P := by
        simp only [hx, if_true] at h
        omega
      obtain ⟨b, hb, hPb⟩ := List.countP_pos_iff.mp hpos
      obtain ⟨q, hq⟩ := List.getElem?_of_mem hb
      exact ⟨0, q + 1, x, b, by omega, by simp, by simpa using hq, hx, hPb⟩
    · simp only [hx, if_false, Nat.add_zero] at h
      obtain ⟨p, q, a, b, hpq, hp, hq, ha, hb⟩ := ih h
      exact ⟨p + 1, q + 1, a, b, by omega, by simpa using hp, by simpa using hq, ha, hb⟩

/-- C11, as stated, fails: for the catalog `twoCopies` the call started at
"Fiction" returns the title A at the positions 0 and 1, and every book of the
catalog is in the one category "Fiction". -/
theorem recommendBooks_twoCopies_same_category :
    (recommendBooks twoCopies "Fiction" (StdSet.empty, []) 0).2 = ["A", "A"] ∧
    (∀ b ∈ twoCopies, b.category = "Fiction") ∧
    ¬ ∃ b1 ∈ twoCopies, ∃ b2 ∈ twoCopies, b1.category ≠ b2.category := by
  refine ⟨?_, ?_, ?_⟩
  · simp +decide [recommendBooks, relatedCategories, addTitles, twoCopies, StdSet.count,
      StdSet.insert, StdSet.empty]
  · simp [twoCopies]
  · simp [twoCopies]

/-- C11, amended: for every catalog and start category, if a title occurs at
two different positions of the list returned by a top-level call of
`recommendBooks`, then the catalog holds at two different positions two
available books with that title, each in a category that was visited during
the call; the two categories need not differ. -/
theorem recommendBooks_duplicate_title_two_copies (books : List Book) (start t : String)
    (i j : Nat) (hij : i ≠ j)
    (hi : (recommendBooks books start (StdSet.empty, []) 0).2[i]? = some t)
    (hj : (recommendBooks books start (StdSet.empty, []) 0).2[j]? = some t) :
    ∃ (p q : Nat) (b1 b2 : Book), p < q ∧ books[p]? = some b1 ∧ books[q]? = some b2 ∧
      b1.title = t ∧ b2.title = t ∧ b1.isAvailable = true ∧ b2.isAvailable = true ∧
      b1.category ∈ (recommendBooks books start (StdSet.empty, []) 0).1 ∧
      b2.category ∈ (recommendBooks books start (StdSet.empty, []) 0).1 := by
  have hcount : 2 ≤ (recommendBooks books start (StdSet.empty, []) 0).2.count t := by
    rcases Nat.lt_or_gt_of_ne hij with h | h
    · exact two_le_count_of_getElem? _ t i j h hi hj
    · exact two_le_count_of_getElem? _ t j i h hj hi
  rw [(recommendBooks_count books t start (StdSet.empty, []) 0).2] at hcount
  simp only [List.count_nil, Nat.zero_add] at hcount
  unfold newlyVisitedCopies at hcount
  obtain ⟨p, q, b1, b2, hpq, hp, hq, h1, h2⟩ := exists_two_of_two_le_countP _ _ hcount
  simp only [decide_eq_true_eq] at h1 h2
  exact ⟨p, q, b1, b2, hpq, hp, hq, h1.2.1, h2.2.1, h1.1, h2.1, h1.2.2.1, h2.2.2.1⟩

/-- C11, amended, at a concrete input: the title A at the positions 0 and 1 of
the result for `twoCopies`. -/
theorem recommendBooks_duplicate_title_two_copies_witness :
    ∃ (p q : Nat) (b1 b2 : Book), p < q ∧ twoCopies[p]? = some b1 ∧
      twoCopies[q]? = some b2 ∧
      b1.title = "A" ∧ b2.title = "A" ∧ b1.isAvailable = true ∧ b2.isAvailable = true ∧
      b1.category ∈ (recommendBooks twoCopies "Fiction" (StdSet.empty, []) 0).1 ∧
      b2.category ∈ (recommendBooks twoCopies "Fiction" (StdSet.empty, []) 0).1 :=
  recommendBooks_duplicate_title_two_copies twoCopies "Fiction" "A" 0 1 (by decide)
    (by simp +decide [recommendBooks, relatedCategories, addTitles, twoCopies, StdSet.count,
      StdSet.insert, StdSet.empty])
    (by simp +decide [recommendBooks, relatedCategories, addTitles, twoCopies, StdSet.count,
      StdSet.insert, StdSet.empty])

/-! ## Theorems: borrowing -/

/-- What `findIf` returns is the first match. -/
theorem findIf_isFirstMatch {α : Type} (p : α → Bool) (l : List α) (i : Nat) (a : α)
    (h : findIf p l = some (i, a)) : IsFirstMatch p l i a := by
  induction l generalizing i with
  | nil => simp [findIf] at h
  | cons x xs ih =>
    unfold findIf at h
    by_cases hx : p x = true
    · rw [if_pos hx] at h
      simp only [Option.some.injEq, Prod.mk.injEq] at h
      obtain ⟨rfl, rfl⟩ := h
      exact ⟨by simp, hx, fun k b hk _ => by omega⟩
    · rw [if_neg hx] at h
      cases hr : findIf p xs with
      | none => rw [hr] at h; simp at h
      | some r =>
        obtain ⟨i0, a0⟩ := r
        rw [hr] at h
        simp only [Option.map_some', Option.some.injEq, Prod.mk.injEq] at h
        obtain ⟨rfl, rfl⟩ := h
        obtain ⟨h1, h2, h3⟩ := ih i0 hr
        refine ⟨by simpa using h1, h2, ?_⟩
        intro k b hk hb
        cases k with
        | zero =>
          simp only [List.getElem?_cons_zero, Option.some.injEq] at hb
          subst hb
          simpa using hx
        | succ k =>
          simp only [List.getElem?_cons_succ] at hb
          exact h3 k b (by omega) hb

/-- The first match is what `findIf` returns. -/
theorem findIf_of_isFirstMatch {α : Type} (p : α → Bool) (l : List α) (i : Nat) (a : α)
    (h : IsFirstMatch p l i a) : findIf p l = some (i, a) := by
  induction l generalizing i with
  | nil =>
    obtain ⟨h1, _, _⟩ := h
    simp at h1
  | cons x xs ih =>
    obtain ⟨h1, h2, h3⟩ := h
    unfold findIf
    cases i with
    | zero =>
      simp only [List.getElem?_cons_zero, Option.some.injEq] at h1
      subst h1
      rw [if_pos h2]
    | succ i =>
      have hx : p x = false := h3 0 x (by omega) (by simp)
      simp only [List.getElem?_cons_succ] at h1
      have := ih i ⟨h1, h2, fun k b hk hb => h3 (k + 1) b (by omega) (by simpa using hb)⟩
      simp [hx, this]

/-- When some element passes the test, `findIf` does not return `end()`. -/
theorem findIf_ne_none_of_mem {α : Type} (p : α → Bool) (l : List α) (a : α)
    (ha : a ∈ l) (hp : p a = true) : ∃ r, findIf p l = some r := by
  induction l with
  | nil => cases ha
  | cons x xs ih =>
    unfold findIf
    by_cases hx : p x = true
    · exact ⟨_, by rw [if_pos hx]⟩
    · rw [if_neg hx]
      rcases List.mem_cons.mp ha with rfl | h
      · exact absurd hp hx
      · obtain ⟨r, hr⟩ := ih h
        exact ⟨_, by rw [hr]; rfl⟩

/-- Changing the element at a position is setting the position to the changed
element. -/
theorem modify_eq_set {α : Type} (f : α → α) (l : List α) (i : Nat) (a : α)
    (h : l[i]? = some a) : l.modify f i = l.set i (f a) := by
  apply List.ext_getElem?
  intro m
  rw [List.getElem?_modify, List.getElem?_set]
  by_cases him : i = m
  · subst him
    have hlt : i < l.length := by
      by_contra hge
      rw [List.getElem?_eq_none (by omega)] at h
      cases h
    simp [h, hlt]
  · simp only [him, if_false]
    cases l[m]? <;> rfl

/-- C13: for every library state, ISBN and borrower ID, `borrowBook` returns
true exactly when the first book with that ISBN exists and is available and
some borrower has that ID; when it returns true, that book alone is set to
unavailable and the ISBN is appended to the borrowed list of the first
borrower with that ID, all other books and borrowers staying as they are (and
one line is pushed on the transaction stack); when it returns false the whole
state, with the books, the borrowers and the transaction stack, is unchanged. -/
theorem borrowBook_spec (lm : LibraryManager) (isbn borrowerId : String) :
    ((lm.borrowBook isbn borrowerId).1 = true ↔
      (∃ i book, IsFirstMatch (fun b => decide (b.isbn = isbn)) lm.books i book ∧
        book.isAvailable = true) ∧
      (∃ br ∈ lm.borrowers, br.id = borrowerId)) ∧
    ((lm.borrowBook isbn borrowerId).1 = true →
      ∃ i book j br,
        IsFirstMatch (fun b => decide (b.isbn = isbn)) lm.books i book ∧
        IsFirstMatch (fun b => decide (b.id = borrowerId)) lm.borrowers j br ∧
        (lm.borrowBook isbn borrowerId).2.books =
          lm.books.set i { book with isAvailable := false } ∧
        (lm.borrowBook isbn borrowerId).2.borrowers =
          lm.borrowers.set j { br with borrowedBooks := br.borrowedBooks ++ [isbn] } ∧
        (lm.borrowBook isbn borrowerId).2.recentTransactions =
          ("Borrow: " ++ isbn ++ " by " ++ borrowerId) :: lm.recentTransactions ∧
        (lm.borrowBook isbn borrowerId).2.reservations = lm.reservations ∧
        (lm.borrowBook isbn borrowerId).2.categoryGraph = lm.categoryGraph) ∧
    ((lm.borrowBook isbn borrowerId).1 = false →
      (lm.borrowBook isbn borrowerId).2 = lm) := by
  cases hb : findIf (fun b => decide (b.isbn = isbn)) lm.books with
  | none =>
    have hrun : lm.borrowBook isbn borrowerId = (false, lm) := by
      simp only [LibraryManager.borrowBook, hb]
    rw [hrun]
    refine ⟨?_, (fun h => by simp at h), fun _ => rfl⟩
    constructor
    · intro h; simp at h
    · rintro ⟨⟨i, book, hfirst, _⟩, _⟩
      rw [findIf_of_isFirstMatch _ _ _ _ hfirst] at hb
      cases hb
  | some r =>
    obtain ⟨i, book⟩ := r
    have hfirst := findIf_isFirstMatch _ _ _ _ hb
    by_cases hav : book.isAvailable = true
    · cases hbr : findIf (fun b => decide (b.id = borrowerId)) lm.borrowers with
      | none =>
        have hrun : lm.borrowBook isbn borrowerId = (false, lm) := by
          simp only [LibraryManager.borrowBook, hb, hav, if_true, hbr]
        rw [hrun]
        refine ⟨?_, (fun h => by simp at h), fun _ => rfl⟩
        constructor
        · intro h; simp at h
        · rintro ⟨_, br, hmem, hid⟩
          obtain ⟨r, hr⟩ := findIf_ne_none_of_mem
            (fun b => decide (b.id = borrowerId)) lm.borrowers br hmem (by simpa using hid)
          rw [hr] at hbr
          cases hbr
      | some r2 =>
        obtain ⟨j, br⟩ := r2
        have hfirst2 := findIf_isFirstMatch _ _ _ _ hbr
        have hrun : lm.borrowBook isbn borrowerId =
            (true,
              { lm with
                books := lm.books.modify (fun b => b.setAvailability false) i
                borrowers := lm.borrowers.modify (fun b => b.borrowBook isbn) j
                recentTransactions :=
                  ("Borrow: " ++ isbn ++ " by " ++ borrowerId) :: lm.recentTransactions }) := by
          simp only [LibraryManager.borrowBook, hb, hav, if_true, hbr]
        rw [hrun]
        refine ⟨?_, fun _ => ?_, (fun h => by simp at h)⟩
        · constructor
          · intro _
            refine ⟨⟨i, book, hfirst, hav⟩, br, List.getElem?_mem hfirst2.1, ?_⟩
            simpa using hfirst2.2.1
          · intro _; rfl
        · refine ⟨i, book, j, br, hfirst, hfirst2, ?_, ?_, rfl, rfl, rfl⟩
          · exact modify_eq_set _ _ _ _ hfirst.1
          · exact modify_eq_set _ _ _ _ hfirst2.1
    · have hrun : lm.borrowBook isbn borrowerId = (false, lm) := by
        simp only [LibraryManager.borrowBook, hb, hav, if_false]
        simp
      rw [hrun]
      refine ⟨?_, (fun h => by simp at h), fun _ => rfl⟩
      constructor
      · intro h; simp at h
      · rintro ⟨⟨i2, book2, hfirst2, hav2⟩, _⟩
        rw [findIf_of_isFirstMatch _ _ _ _ hfirst2] at hb
        simp only [Option.some.injEq, Prod.mk.injEq] at hb
        obtain ⟨_, rfl⟩ := hb
        exact absurd hav2 hav

/-- A concrete run of `borrowBook`: of two copies under one ISBN the first is
lent, to the first of two readers under one ID. -/
theorem borrowBook_smallLibrary :
    (smallLibrary.borrowBook "2" "u1").1 = true ∧
    (smallLibrary.borrowBook "2" "u1").2.books =
      [⟨"A", "", "1", false, "Fiction"⟩, ⟨"B", "", "2", false, "Fantasy"⟩,
        ⟨"B", "", "2", true, "Fantasy"⟩] ∧
    (smallLibrary.borrowBook "2" "u1").2.borrowers =
      [⟨"u0", "Ann", []⟩, ⟨"u1", "Bob", ["1", "2"]⟩, ⟨"u1", "Bea", []⟩] ∧
    (smallLibrary.borrowBook "1" "u1").1 = false ∧
    (smallLibrary.borrowBook "2" "u7").1 = false := by
  decide

/-! ## Theorems: CSV lines -/

/-- The first comma of a comma-free token followed by a comma is right after
the token. -/
theorem findIf_comma_append (tok rest : List Char) (h : ',' ∉ tok) :
    findIf (fun c => decide (c = ',')) (tok ++ ',' :: rest) =
      some (tok.length, ',') := by
  induction tok with
  | nil => simp [findIf]
  | cons c tok ih =>
    have hc : ¬ c = ',' := fun hc => h (by rw [hc]; exact List.mem_cons_self _ _)
    have ht : ',' ∉ tok := fun ht => h (List.mem_cons_of_mem _ ht)
    simp [findIf, hc, ih ht]

/-- No comma is found in a comma-free token. -/
theorem findIf_comma_none (tok : List Char) (h : ',' ∉ tok) :
    findIf (fun c => decide (c = ',')) tok = none := by
  induction tok with
  | nil => rfl
  | cons c tok ih =>
    have hc : ¬ c = ',' := fun hc => h (by rw [hc]; exact List.mem_cons_self _ _)
    have ht : ',' ∉ tok := fun ht => h (List.mem_cons_of_mem _ ht)
    simp [findIf, hc, ih ht]

/-- One round of the splitting loop: a comma-free token in front of a comma is
pushed and the loop goes on with what follows the comma. -/
theorem splitLine_token (tok rest : List Char) (tokens : List String)
    (h : ',' ∉ tok) :
    splitLine (tok ++ ',' :: rest) tokens =
      splitLine rest (tokens ++ [String.mk tok]) := by
  rw [splitLine]
  split
  · next pos c heq =>
    rw [findIf_comma_append tok rest h] at heq
    simp only [Option.some.injEq, Prod.mk.injEq] at heq
    obtain ⟨rfl, _⟩ := heq
    simp
  · next heq =>
    rw [findIf_comma_append tok rest h] at heq
    cases heq

/-- The end of the splitting loop: a comma-free rest is the last token. -/
theorem splitLine_last (tok : List Char) (tokens : List String) (h : ',' ∉ tok) :
    splitLine tok tokens = tokens ++ [String.mk tok] := by
  rw [splitLine]
  split
  · next pos c heq =>
    rw [findIf_comma_none tok h] at heq
    cases heq
  · rfl

/-- The characters of the line that `toCSV` makes. -/
theorem toCSV_toList (book : Book) :
    book.toCSV.toList =
      book.title.toList ++ ',' :: (book.author.toList ++ ',' ::
        (book.isbn.toList ++ ',' :: ((boolToString book.isAvailable).toList ++ ',' ::
          book.category.toList))) := by
  simp [Book.toCSV, String.toList, String.data_append]

/-- C14: for every book whose title, author, ISBN and category hold no comma,
the line made by `toCSV`, split and read the way `loadBooks` does, gives back
the book: the same title, author, ISBN, availability and category. -/
theorem loadBookLine_toCSV (book : Book)
    (ht : ',' ∉ book.title.toList) (ha : ',' ∉ book.author.toList)
    (hi : ',' ∉ book.isbn.toList) (hc : ',' ∉ book.category.toList) :
    loadBookLine book.toCSV = some book := by
  have hb : ',' ∉ (boolToString book.isAvailable).toList := by
    cases book.isAvailable <;> decide
  have hsplit : splitLine book.toCSV.toList [] =
      [book.title, book.author, book.isbn, boolToString book.isAvailable, book.category] := by
    rw [toCSV_toList, splitLine_token _ _ _ ht, splitLine_token _ _ _ ha,
      splitLine_token _ _ _ hi, splitLine_token _ _ _ hb, splitLine_last _ _ hc]
    rfl
  unfold loadBookLine
  rw [hsplit]
  obtain ⟨t, a, i, av, c⟩ := book
  cases av <;> simp +decide [Book.new, Book.setAvailability, boolToString]

/-- C14 at a concrete input: the borrowed book `duneBook`. -/
theorem loadBookLine_toCSV_witness :
    duneBook.toCSV = "Dune,Frank Herbert,978-0441172719,0,Science Fiction" ∧
    loadBookLine duneBook.toCSV = some duneBook :=
  ⟨by decide, loadBookLine_toCSV duneBook (by decide) (by decide) (by decide) (by decide)⟩

end Library
